import Mathlib

/-!
Verification of the weighted-graph / Dijkstra module (`task_3.py`).

The Python module defines a `Graph` class holding
  * `edges : defaultdict(dict)` — a dict from vertex to (dict from neighbor to int weight),
  * `nodes : set` — the registered vertices,
with methods `add_node`, `add_edge`, `get_neighbors`, and a function
`dijkstra(graph, start)` implementing Dijkstra's algorithm with a binary
heap (`heapq`) and lazy deletion.

Embedding choices:
  * Python dicts are insertion-ordered association lists (`List (String × _)`);
    `dictGet` reads the first matching key, `dictSet` overwrites in place or
    appends, exactly like a Python dict.  The `defaultdict` auto-creation of
    an empty inner dict on lookup is `ddGet`, which returns the (possibly
    mutated) outer dict alongside the found inner dict.
  * `float('infinity')` is `⊤ : WithTop ℤ`; all finite distances are integers.
  * The binary heap is modelled by its observable behaviour: a list of
    `(distance, vertex)` entries from which `popMin` extracts the least entry
    under the lexicographic order Python uses on tuples.  Since equal tuples
    are indistinguishable, this is observationally equivalent to `heapq`.
  * `distances[neighbor]` raising `KeyError` is modelled by the `.keyError`
    result; the unbounded `while heap:` loop is run on an explicit fuel that
    is proven sufficient (`dijkstra_never_fuelOut`), so the `.fuelOut`
    constructor is dead code of the model, not a behaviour of the program.
-/

/-- Read the first binding of `key` in an insertion-ordered dict (Python `d[key]` lookup). -/
def dictGet {β : Type} : List (String × β) → String → Option β
  | [], _ => none
  | (k, x) :: rest, key => if k = key then some x else dictGet rest key

/-- Overwrite the first binding of `key`, or append a new binding (Python `d[key] = x`). -/
def dictSet {β : Type} : List (String × β) → String → β → List (String × β)
  | [], key, x => [(key, x)]
  | (k, y) :: rest, key, x =>
    if k = key then (k, x) :: rest else (k, y) :: dictSet rest key x

/-- Adjacency data of the Python `Graph`: dict from vertex to dict from neighbor to weight. -/
abbrev EDict := List (String × List (String × ℤ))

/-- Lookup in a `defaultdict(dict)`: return the inner dict for `k`, inserting an
empty inner dict when `k` is absent (this mutation is Python's `self.edges[k]`). -/
def ddGet (e : EDict) (k : String) : List (String × ℤ) × EDict :=
  match dictGet e k with
  | some d => (d, e)
  | none => ([], e ++ [(k, [])])

/-- One Python statement `self.edges[u][v] = weight` on a `defaultdict(dict)`. -/
def edgeSet (e : EDict) (u v : String) (w : ℤ) : EDict :=
  let p := ddGet e u
  dictSet p.2 u (dictSet p.1 v w)

/-- The weight stored for the directed entry `u → v`, if any. -/
def edgeWeight (e : EDict) (u v : String) : Option ℤ :=
  match dictGet e u with
  | some d => dictGet d v
  | none => none

/-- The Python `Graph` object: `edges` (defaultdict of dicts) and `nodes` (a set,
modelled as a duplicate-free insertion list). -/
structure Graph where
  edges : EDict
  nodes : List String
deriving DecidableEq

/-- `Graph()` — empty adjacency, empty vertex set. -/
def Graph.empty : Graph := ⟨[], []⟩

/-- Python set insertion: add if not already present. -/
def setInsert (s : List String) (x : String) : List String :=
  if x ∈ s then s else s ++ [x]

/-- `Graph.add_node(node)`: `self.nodes.add(node)`. -/
def Graph.add_node (g : Graph) (node : String) : Graph :=
  ⟨g.edges, setInsert g.nodes node⟩

/-- `Graph.add_edge(u, v, weight)`: `self.edges[u][v] = weight; self.edges[v][u] = weight`. -/
def Graph.add_edge (g : Graph) (u v : String) (weight : ℤ) : Graph :=
  ⟨edgeSet (edgeSet g.edges u v weight) v u weight, g.nodes⟩

/-- `Graph.get_neighbors(node)`: `return self.edges[node]` — a defaultdict lookup,
so it may insert an empty adjacency record as a side effect. -/
def Graph.get_neighbors (g : Graph) (node : String) : List (String × ℤ) × Graph :=
  let p := ddGet g.edges node
  (p.1, ⟨p.2, g.nodes⟩)

/-- Distance values: `float('infinity')` is `⊤`, all other values are integers. -/
abbrev DVal := WithTop ℤ

/-- The initial table `{node: float('infinity') for node in graph.nodes}` followed by
`distances[start] = 0`, viewed extensionally (Python dict ↦ function to `Option`,
`none` meaning the key is absent). -/
def initDist (g : Graph) (start : String) : String → Option DVal :=
  fun v => if v = start then some 0 else if v ∈ g.nodes then some ⊤ else none

/-- Python's `<` on strings: lexicographic comparison of code points.  (Core's
`String.lt` is semantically the same order but is implemented with extern
iterator primitives that the kernel cannot evaluate, so we compare the
character lists directly.) -/
def strLtb : List Char → List Char → Bool
  | [], [] => false
  | [], _ :: _ => true
  | _ :: _, [] => false
  | a :: as, b :: bs =>
    if a.val.toNat < b.val.toNat then true
    else if b.val.toNat < a.val.toNat then false
    else strLtb as bs

/-- Python's `<=` on strings. -/
def sLE (a b : String) : Bool := !(strLtb b.data a.data)

/-- Python's ordering on heap entries `(distance, vertex)`: lexicographic tuple
comparison, integer distance first, then the vertex string. -/
def entryLE (a b : ℤ × String) : Bool :=
  if a.1 < b.1 then true
  else if b.1 < a.1 then false
  else sLE a.2 b.2

/-- Extract the least entry of the heap (`heapq.heappop`).  Returns the minimum
under `entryLE` together with the remaining entries. -/
def popMin : List (ℤ × String) → Option ((ℤ × String) × List (ℤ × String))
  | [] => none
  | x :: xs =>
    match popMin xs with
    | none => some (x, [])
    | some (m, rest) => if entryLE x m then some (x, xs) else some (m, x :: rest)

/-- The body of the `for neighbor, weight in graph.get_neighbors(current).items():`
loop: sequentially relax every neighbor, updating the distance table and pushing
improved entries onto the heap; `distances[neighbor]` on an absent key raises
`KeyError`, modelled by `.error neighbor`. -/
def relaxFold (cd : ℤ) (vis : Finset String) :
    List (String × ℤ) → (String → Option DVal) → List (ℤ × String) →
      Except String ((String → Option DVal) × List (ℤ × String))
  | [], d, h => .ok (d, h)
  | (v, w) :: rest, d, h =>
    if v ∈ vis then relaxFold cd vis rest d h
    else
      match d v with
      | none => .error v
      | some dv =>
        if ((cd + w : ℤ) : DVal) < dv then
          relaxFold cd vis rest
            (fun x => if x = v then some ((cd + w : ℤ) : DVal) else d x)
            (h ++ [(cd + w, v)])
        else relaxFold cd vis rest d h

/-- The mutable state of one `dijkstra` invocation: the heap, the visited set,
the distance table and the (defaultdict) adjacency data. -/
structure DState where
  heap : List (ℤ × String)
  visited : Finset String
  dist : String → Option DVal
  edges : EDict

/-- Result of one iteration of the `while heap:` loop. -/
inductive StepRes where
  | done : StepRes
  | err : String → StepRes
  | next : DState → StepRes

/-- One iteration of the `while heap:` loop: pop the least entry, skip it if the
vertex is already visited, otherwise mark it visited and relax its neighbors. -/
def dijkstraStep (s : DState) : StepRes :=
  match popMin s.heap with
  | none => .done
  | some ((cd, current), rest) =>
    if current ∈ s.visited then .next ⟨rest, s.visited, s.dist, s.edges⟩
    else
      match relaxFold cd (insert current s.visited) (ddGet s.edges current).1 s.dist rest with
      | .error v => .err v
      | .ok (d', h') => .next ⟨h', insert current s.visited, d', (ddGet s.edges current).2⟩

/-- Result of running the loop to completion. -/
inductive LoopRes where
  | out : LoopRes
  | keyErrRes : String → LoopRes
  | tableRes : (String → Option DVal) → EDict → LoopRes

/-- The `while heap:` loop, driven by an explicit fuel (shown sufficient below). -/
def dijkstraLoopF : ℕ → DState → LoopRes
  | 0, _ => .out
  | n + 1, s =>
    match dijkstraStep s with
    | .done => .tableRes s.dist s.edges
    | .err v => .keyErrRes v
    | .next s' => dijkstraLoopF n s'

/-- Total number of directed adjacency entries. -/
def totalE (e : EDict) : ℕ := (e.map (fun p => p.2.length)).sum

/-- Fuel that strictly dominates the number of loop iterations. -/
def fuelBound (g : Graph) (start : String) : ℕ :=
  ((insert start g.nodes.toFinset).card + 1) * (1 + totalE g.edges) + 2

/-- Observable outcome of `dijkstra(graph, start)`: the returned distance table
together with the graph as it stands after the call (the defaultdict may have
gained empty records), or an uncaught `KeyError` on the named vertex.
`fuelOut` is an artifact of the fuelled model and is proven unreachable. -/
inductive DijkstraResult where
  | table : (String → Option DVal) → Graph → DijkstraResult
  | keyError : String → DijkstraResult
  | fuelOut : DijkstraResult

/-- `dijkstra(graph, start)` from `task_3.py`. -/
def dijkstra (g : Graph) (start : String) : DijkstraResult :=
  match dijkstraLoopF (fuelBound g start) ⟨[((0 : ℤ), start)], ∅, initDist g start, g.edges⟩ with
  | .out => .fuelOut
  | .keyErrRes v => .keyError v
  | .tableRes d e => .table d ⟨e, g.nodes⟩

/-- Walks through the adjacency data: `Walk e s v vs c` says there is a walk from
`s` to `v` whose successive vertices after `s` are `vs`, using recorded directed
entries, with total weight `c`.  ("Paths" of the specification are exactly these
edge sequences; the `Nodup` side conditions below single out the simple ones.) -/
inductive Walk (e : EDict) (s : String) : String → List String → ℤ → Prop where
  | nil : Walk e s s [] 0
  | snoc {u v : String} {vs : List String} {c w : ℤ} :
      Walk e s u vs c → edgeWeight e u v = some w → Walk e s v (vs ++ [v]) (c + w)

/-- Undirected symmetry of the adjacency data. -/
def SymAdj (e : EDict) : Prop :=
  ∀ u v w, edgeWeight e u v = some w → edgeWeight e v u = some w

/-- The distance table of a completed query, if the call returned normally. -/
def resTable : DijkstraResult → Option (String → Option DVal)
  | .table d _ => some d
  | _ => none

/-- The graph as left behind by the query, if the call returned normally. -/
def resGraph : DijkstraResult → Option Graph
  | .table _ g => some g
  | _ => none

/-- Whether the query returned a distance table at all. -/
def isTable : DijkstraResult → Bool
  | .table _ _ => true
  | _ => false

/-- The entry of the returned distance table at `v` (`none` if no table was
returned, `some none` if the table has no key `v`). -/
def distAt (r : DijkstraResult) (v : String) : Option (Option DVal) :=
  (resTable r).map (fun d => d v)

/-- The graph built by `main()`: vertices `A`–`E`, the seven reference edges. -/
def mainGraph : Graph :=
  let g0 := ["A", "B", "C", "D", "E"].foldl Graph.add_node Graph.empty
  [("A", "B", (4 : ℤ)), ("A", "C", 2), ("B", "C", 1), ("B", "D", 5),
    ("C", "D", 8), ("C", "E", 10), ("D", "E", 2)].foldl
    (fun g t => g.add_edge t.1 t.2.1 t.2.2) g0

/-- A graph whose edge `A–B` was added without ever registering `B` (or `A`,
beyond `add_node "A"`): the family of inputs described by claim C10. -/
def badGraph : Graph := (Graph.empty.add_node "A").add_edge "A" "B" 1

/-- A single registered vertex and no edges. -/
def soloGraph : Graph := Graph.empty.add_node "A"

/-- Extension order on adjacency dicts: every existing binding survives verbatim
and no stored weight changes (only empty records may be appended). -/
def EdgesExt (e e' : EDict) : Prop :=
  (∀ u l, dictGet e u = some l → dictGet e' u = some l) ∧
  (∀ u v, edgeWeight e' u v = edgeWeight e u v)

/-- Concrete pre-state for the C7 witness: the initial state of a query on
`soloGraph`. -/
def stepWitState : DState := ⟨[((0 : ℤ), "A")], ∅, initDist soloGraph "A", soloGraph.edges⟩

/-- The state reached from `stepWitState` after one loop iteration. -/
def stepWitState' : DState :=
  ⟨[], insert "A" (∅ : Finset String), initDist soloGraph "A", [("A", [])]⟩

/-- Two adjacency dicts are effectively equal when every defaultdict lookup
returns the same neighbor list (empty records and missing keys coincide). -/
def EffEq (e e' : EDict) : Prop := ∀ k, (ddGet e k).1 = (ddGet e' k).1

/-- Correspondence of loop outcomes for effectively equal adjacency data: same
termination mode, same `KeyError` vertex, same distance table. -/
def LoopResMatch : LoopRes → LoopRes → Prop
  | .out, .out => True
  | .keyErrRes v, .keyErrRes v' => v = v'
  | .tableRes d _, .tableRes d' _ => d = d'
  | _, _ => False

/-- What `heapq.heappop` guarantees: the popped entry is a least element of the
heap, and the remaining entries are the other occurrences. -/
structure PopSpec (l : List (ℤ × String)) (m : ℤ × String)
    (rest : List (ℤ × String)) : Prop where
  mem : m ∈ l
  sub : ∀ x ∈ rest, x ∈ l
  cover : ∀ x ∈ l, x = m ∨ x ∈ rest
  len : rest.length + 1 = l.length
  isMin : ∀ x ∈ l, entryLE m x = true

/-- Everything one pass of the neighbor relaxation guarantees (when it completes
without a `KeyError`): key set preserved, each table entry either untouched or
overwritten by a freshly pushed candidate `cd + w`, every neighbor relaxed, the
incoming heap entries kept, every new heap entry accounted for, and the heap
growth bounded by the number of neighbors. -/
structure RelaxSpec (cd : ℤ) (vis : Finset String) (nbrs : List (String × ℤ))
    (d : String → Option DVal) (hp : List (ℤ × String))
    (d' : String → Option DVal) (h' : List (ℤ × String)) : Prop where
  keys : ∀ v, (d' v).isSome = (d v).isSome
  dich : ∀ v, d' v = d v ∨
    (v ∉ vis ∧ ∃ w, (v, w) ∈ nbrs ∧ d' v = some ((cd + w : ℤ) : DVal) ∧ (cd + w, v) ∈ h')
  relaxed : ∀ v w, (v, w) ∈ nbrs →
    v ∈ vis ∨ ∃ dv : ℤ, d' v = some ((dv : ℤ) : DVal) ∧ dv ≤ cd + w
  hpSub : ∀ p ∈ hp, p ∈ h'
  newMem : ∀ p ∈ h', p ∈ hp ∨
    ((d p.2).isSome = true ∧ (∃ w, (p.2, w) ∈ nbrs ∧ p.1 = cd + w) ∧ p.2 ∉ vis)
  len : h'.length ≤ hp.length + nbrs.length

/-- Light invariant sufficient for termination: every heap vertex and every
table key lies in `V`, and the edge count is `T`. -/
structure FuelInv (V : Finset String) (T : ℕ) (s : DState) : Prop where
  heapV : ∀ p ∈ s.heap, p.2 ∈ V
  keysV : ∀ v, (s.dist v).isSome = true → v ∈ V
  tot : totalE s.edges = T

/-- The termination measure of the `while` loop. -/
def fuelMeasure (V : Finset String) (T : ℕ) (s : DState) : ℕ :=
  s.heap.length + (V \ s.visited).card * (1 + T)

/-- Invariant ruling out `KeyError`: every vertex of `N` has a table entry, and
every recorded neighbor lies in `N`. -/
structure SafeInv (N : List String) (s : DState) : Prop where
  keysN : ∀ v, v ∈ N → (s.dist v).isSome = true
  edgesN : ∀ p ∈ s.edges, ∀ q ∈ p.2, q.1 ∈ N

/-- Python-dict well-formedness: inner adjacency dicts have distinct keys. -/
def EdgeKeysWF (e : EDict) : Prop := ∀ p ∈ e, (p.2.map Prod.fst).Nodup

/-- All recorded weights are non-negative. -/
def NonnegW (e : EDict) : Prop := ∀ p ∈ e, ∀ q ∈ p.2, 0 ≤ q.2

instance (e : EDict) : Decidable (EdgeKeysWF e) := by
  unfold EdgeKeysWF
  infer_instance

instance (e : EDict) : Decidable (NonnegW e) := by
  unfold NonnegW
  infer_instance

/-- The master invariant of the algorithm, relative to the original adjacency
data `E0`, the registered vertices `N` and the start vertex. -/
structure DijkInv (E0 : EDict) (N : List String) (start : String) (s : DState) : Prop where
  keys : ∀ v, (s.dist v).isSome = true ↔ (v = start ∨ v ∈ N)
  edgesEq : ∀ u v, edgeWeight s.edges u v = edgeWeight E0 u v
  wf : EdgeKeysWF s.edges
  nonneg : ∀ v x, s.dist v = some x → 0 ≤ x
  start0 : s.dist start = some 0
  reach : ∀ v (dv : ℤ), s.dist v = some ((dv : ℤ) : DVal) →
    ∃ vs, Walk E0 start v vs dv ∧ (start :: vs).Nodup ∧
      ∀ x ∈ start :: vs, x ∈ insert v s.visited
  relaxedInv : ∀ u ∈ s.visited, ∃ du : ℤ, s.dist u = some ((du : ℤ) : DVal) ∧
    ∀ v w, edgeWeight E0 u v = some w →
      v ∈ s.visited ∨ ∃ dv : ℤ, s.dist v = some ((dv : ℤ) : DVal) ∧ dv ≤ du + w
  fresh : ∀ v (dv : ℤ), v ∉ s.visited → s.dist v = some ((dv : ℤ) : DVal) →
    (dv, v) ∈ s.heap
  entries : ∀ p ∈ s.heap, ∃ dv : ℤ, s.dist p.2 = some ((dv : ℤ) : DVal) ∧ dv ≤ p.1
  lower : ∀ u ∈ s.visited, ∀ du : ℤ, s.dist u = some ((du : ℤ) : DVal) →
    ∀ vs c, Walk E0 start u vs c → du ≤ c

/-- How `dictGet` reads through `dictSet` at the written key. -/
theorem dictGet_dictSet_self {β : Type} (l : List (String × β)) (k : String) (x : β) :
    dictGet (dictSet l k x) k = some x := by
  induction l with
  | nil => simp [dictSet, dictGet]
  | cons p rest ih =>
    by_cases h : p.1 = k
    · simp [dictSet, dictGet, h]
    · simp [dictSet, dictGet, h, ih]

/-- `dictSet` does not disturb other keys. -/
theorem dictGet_dictSet_ne {β : Type} (l : List (String × β)) (k k' : String) (x : β)
    (h : k' ≠ k) : dictGet (dictSet l k x) k' = dictGet l k' := by
  induction l with
  | nil => simp [dictSet, dictGet, Ne.symm h]
  | cons p rest ih =>
    by_cases hp : p.1 = k
    · subst hp
      simp [dictSet, dictGet, Ne.symm h]
    · by_cases hp' : p.1 = k'
      · simp [dictSet, dictGet, hp, hp', h]
      · simp [dictSet, dictGet, hp, hp', ih]

/-- Reading a concatenated dict: the left part takes precedence. -/
theorem dictGet_append {β : Type} (l m : List (String × β)) (k : String) :
    dictGet (l ++ m) k = match dictGet l k with
      | some x => some x
      | none => dictGet m k := by
  induction l with
  | nil => simp [dictGet]
  | cons p rest ih =>
    by_cases h : p.1 = k
    · simp [dictGet, h]
    · simp [dictGet, h, ih]

/-- Effect of one `self.edges[u][v] = w` statement on every stored weight. -/
theorem edgeWeight_edgeSet (e : EDict) (u v : String) (w : ℤ) (x y : String) :
    edgeWeight (edgeSet e u v w) x y =
      if x = u ∧ y = v then some w else edgeWeight e x y := by
  unfold edgeSet ddGet
  rcases he : dictGet e u with _ | du
  · by_cases hx : x = u
    · subst hx
      have h1 : dictGet (e ++ [(x, ([] : List (String × ℤ)))]) x = some [] := by
        rw [dictGet_append, he]
        simp [dictGet]
      simp only [edgeWeight, dictGet_dictSet_self]
      by_cases hy : y = v
      · subst hy
        simp [dictGet_dictSet_self]
      · rw [dictGet_dictSet_ne _ _ _ _ hy]
        simp [dictGet, hy, he, edgeWeight]
    · rw [edgeWeight, dictGet_dictSet_ne _ _ _ _ hx, dictGet_append, edgeWeight]
      rcases hx' : dictGet e x with _ | dx
      · simp [dictGet, hx, hx', Ne.symm hx]
      · simp [hx, hx']
  · by_cases hx : x = u
    · subst hx
      simp only [edgeWeight, dictGet_dictSet_self, he]
      by_cases hy : y = v
      · subst hy
        simp [dictGet_dictSet_self]
      · rw [dictGet_dictSet_ne _ _ _ _ hy]
        simp [hy]
    · rw [edgeWeight, dictGet_dictSet_ne _ _ _ _ hx, edgeWeight]
      simp [hx]

/-- Effect of `add_edge(u, v, w)` on every stored weight: both directed entries
are written (the second statement shadows the first when `{x,y} = {u,v}` in both
orders coincide). -/
theorem edgeWeight_add_edge (g : Graph) (u v : String) (w : ℤ) (x y : String) :
    edgeWeight (g.add_edge u v w).edges x y =
      if x = v ∧ y = u then some w
      else if x = u ∧ y = v then some w
      else edgeWeight g.edges x y := by
  show edgeWeight (edgeSet (edgeSet g.edges u v w) v u w) x y = _
  rw [edgeWeight_edgeSet, edgeWeight_edgeSet]

/-- Claim C9: on the reference graph with vertices `A`–`E` and edges
`(A,B,4) (A,C,2) (B,C,1) (B,D,5) (C,D,8) (C,E,10) (D,E,2)`, the query from
start `A` returns the distances `A=0, B=3, C=2, D=8, E=10`. -/
theorem dijkstra_concrete_scenario :
    distAt (dijkstra mainGraph "A") "A" = some (some ((0 : ℤ) : DVal)) ∧
    distAt (dijkstra mainGraph "A") "B" = some (some ((3 : ℤ) : DVal)) ∧
    distAt (dijkstra mainGraph "A") "C" = some (some ((2 : ℤ) : DVal)) ∧
    distAt (dijkstra mainGraph "A") "D" = some (some ((8 : ℤ) : DVal)) ∧
    distAt (dijkstra mainGraph "A") "E" = some (some ((10 : ℤ) : DVal)) :=
  ⟨rfl, rfl, rfl, rfl, rfl⟩

/-- Claim C10: `badGraph` registers only `A`, but `add_edge("A","B",1)` recorded
an edge to the never-registered (and reachable) endpoint `B`; the query from
`A` does not return a table — it aborts with the `KeyError` raised when the
relaxation step looks `B` up in the distance table. -/
theorem dijkstra_keyerror_unregistered_endpoint :
    dijkstra badGraph "A" = .keyError "B" := rfl

/-- Claim C3 counterexample: `add_edge` called with the negative weight `-1` is
not rejected — the adjacency data of the empty graph is mutated. -/
theorem add_edge_negative_weight_inserted_cex :
    (Graph.empty.add_edge "A" "B" (-1)).edges ≠ Graph.empty.edges := by decide

/-- After `add_edge(u, v, w)` both directed entries hold weight `w`. -/
theorem add_edge_writes_both (g : Graph) (u v : String) (w : ℤ) :
    edgeWeight (g.add_edge u v w).edges u v = some w ∧
    edgeWeight (g.add_edge u v w).edges v u = some w := by
  rw [edgeWeight_add_edge, edgeWeight_add_edge]
  constructor
  · by_cases h : u = v
    · subst h
      simp
    · simp [h]
  · simp

/-- Claim C3 (amended): `add_edge(u, v, w)` performs no weight validation: for
every weight `w`, negative included, it inserts both symmetric adjacency
entries with weight `w` (no `InvalidWeight` error exists in the code). -/
theorem add_edge_accepts_any_weight (g : Graph) (u v : String) (w : ℤ) :
    edgeWeight (g.add_edge u v w).edges u v = some w ∧
    edgeWeight (g.add_edge u v w).edges v u = some w :=
  add_edge_writes_both g u v w

/-- Claim C4 counterexample: after `add_edge("A","B",1)` on the empty graph the
endpoint `A` is not a member of the registered vertex set. -/
theorem add_edge_does_not_register_nodes_cex :
    "A" ∉ (Graph.empty.add_edge "A" "B" 1).nodes := by decide

/-- Claim C4 (amended): `add_edge` never touches the registered vertex set
`nodes`; endpoints become registered only through `add_node`. -/
theorem add_edge_nodes_unchanged (g : Graph) (u v : String) (w : ℤ) :
    (g.add_edge u v w).nodes = g.nodes := rfl

/-- Claim C5 counterexample: querying `soloGraph` (one registered vertex `A`, no
edges) from `A` hands back a graph different from the input — its adjacency
dict has gained the key `A` (defaultdict lookup-as-mutation). -/
theorem dijkstra_mutates_edge_keys_cex :
    resGraph (dijkstra soloGraph "A") ≠ some soloGraph := by decide

/-- Claim C2 counterexample: the start vertex `A` is not registered in the empty
graph, yet the query returns a distance table — with `A` mapped to `0` — instead
of failing with an error. -/
theorem dijkstra_unregistered_start_returns_table_cex :
    isTable (dijkstra Graph.empty "A") = true ∧
    distAt (dijkstra Graph.empty "A") "A" = some (some ((0 : ℤ) : DVal)) :=
  ⟨rfl, rfl⟩

/-- `EdgesExt` is reflexive. -/
theorem edgesExt_refl (e : EDict) : EdgesExt e e :=
  ⟨fun _ _ h => h, fun _ _ => rfl⟩

/-- `EdgesExt` is transitive. -/
theorem edgesExt_trans {a b c : EDict} (h1 : EdgesExt a b) (h2 : EdgesExt b c) :
    EdgesExt a c :=
  ⟨fun u l h => h2.1 u l (h1.1 u l h), fun u v => (h2.2 u v).trans (h1.2 u v)⟩

/-- A defaultdict lookup only extends the dict. -/
theorem ddGet_edgesExt (e : EDict) (k : String) : EdgesExt e (ddGet e k).2 := by
  rcases h : dictGet e k with _ | d
  · refine ⟨fun u l hl => ?_, fun u v => ?_⟩
    · simp only [ddGet, h]
      rw [dictGet_append, hl]
    · simp only [ddGet, h]
      unfold edgeWeight
      rw [dictGet_append]
      rcases hu : dictGet e u with _ | du
      · by_cases hk : k = u
        · subst hk
          simp [dictGet]
        · simp [dictGet, hk]
      · simp
  · have he : (ddGet e k).2 = e := by simp [ddGet, h]
    rw [he]
    exact edgesExt_refl e

/-- Unfolding equation of `dijkstraStep` when the heap is empty. -/
theorem dijkstraStep_eq_done (hp : List (ℤ × String)) (vis : Finset String)
    (d : String → Option DVal) (e : EDict) (h : popMin hp = none) :
    dijkstraStep ⟨hp, vis, d, e⟩ = .done := by
  unfold dijkstraStep
  rw [h]

/-- Unfolding equation of `dijkstraStep` when the heap pops `(cd, current)`. -/
theorem dijkstraStep_eq_pop (hp : List (ℤ × String)) (vis : Finset String)
    (d : String → Option DVal) (e : EDict) (cd : ℤ) (current : String)
    (rest : List (ℤ × String)) (h : popMin hp = some ((cd, current), rest)) :
    dijkstraStep ⟨hp, vis, d, e⟩ =
      if current ∈ vis then .next ⟨rest, vis, d, e⟩
      else
        match relaxFold cd (insert current vis) (ddGet e current).1 d rest with
        | .error v => .err v
        | .ok (d', h') => .next ⟨h', insert current vis, d', (ddGet e current).2⟩ := by
  unfold dijkstraStep
  rw [h]

/-- One loop iteration only extends the adjacency dict. -/
theorem dijkstraStep_edgesExt {s s' : DState} (h : dijkstraStep s = .next s') :
    EdgesExt s.edges s'.edges := by
  obtain ⟨shp, svis, sd, se⟩ := s
  rcases hp : popMin shp with _ | ⟨⟨cd, current⟩, rest⟩
  · rw [dijkstraStep_eq_done _ _ _ _ hp] at h
    cases h
  · rw [dijkstraStep_eq_pop _ _ _ _ _ _ _ hp] at h
    by_cases hc : current ∈ svis
    · rw [if_pos hc] at h
      cases h
      exact edgesExt_refl _
    · rw [if_neg hc] at h
      rcases hr : relaxFold cd (insert current svis) (ddGet se current).1 sd
        rest with v | ⟨d', h'⟩
      · rw [hr] at h
        cases h
      · rw [hr] at h
        cases h
        exact ddGet_edgesExt _ _

/-- A completed run only extends the adjacency dict. -/
theorem dijkstraLoopF_edgesExt :
    ∀ (n : ℕ) (s : DState) (d : String → Option DVal) (e : EDict),
      dijkstraLoopF n s = .tableRes d e → EdgesExt s.edges e := by
  intro n
  induction n with
  | zero =>
    intro s d e h
    cases h
  | succ n ih =>
    intro s d e h
    unfold dijkstraLoopF at h
    rcases hs : dijkstraStep s with _ | v | s'
    · rw [hs] at h
      cases h
      exact edgesExt_refl _
    · rw [hs] at h
      cases h
    · rw [hs] at h
      exact edgesExt_trans (dijkstraStep_edgesExt hs) (ih s' d e h)

/-- Claim C5 (amended): the query never changes the vertex set, never removes or
rewrites an existing adjacency binding, and never changes a stored weight; only
the adjacency dict's key set may grow, by empty records inserted by the
defaultdict lookup in `get_neighbors` for visited vertices without edges. -/
theorem dijkstra_preserves_nodes_and_weights (g : Graph) (start : String) :
    match dijkstra g start with
    | .table _ g' =>
        g'.nodes = g.nodes ∧
        (∀ u l, dictGet g.edges u = some l → dictGet g'.edges u = some l) ∧
        (∀ u v, edgeWeight g'.edges u v = edgeWeight g.edges u v)
    | .keyError _ => True
    | .fuelOut => True := by
  unfold dijkstra
  rcases hl : dijkstraLoopF (fuelBound g start) ⟨[((0 : ℤ), start)], ∅, initDist g start, g.edges⟩ with _ | v | ⟨d, e⟩
  · exact trivial
  · exact trivial
  · have hext := dijkstraLoopF_edgesExt _ _ _ _ hl
    exact ⟨rfl, hext.1, hext.2⟩

/-- Extending the adjacency dict (by empty records) preserves symmetry. -/
theorem symAdj_of_edgesExt {e e' : EDict} (hext : EdgesExt e e') (hs : SymAdj e) :
    SymAdj e' := by
  intro u v w h
  rw [hext.2] at h
  rw [hext.2]
  exact hs u v w h

/-- Claim C6: edge symmetry is an invariant of every graph operation — it is
preserved by `add_node`, `add_edge`, `get_neighbors` and a completed `dijkstra`
query, and `add_edge(u, v, w)` itself establishes both directed entries with
the same weight `w`. -/
theorem graph_ops_preserve_symmetry (g : Graph) (x u v : String) (w : ℤ)
    (hs : SymAdj g.edges) :
    SymAdj (g.add_node x).edges ∧
    SymAdj (g.add_edge u v w).edges ∧
    SymAdj (g.get_neighbors x).2.edges ∧
    (match dijkstra g x with
      | .table _ g' => SymAdj g'.edges
      | .keyError _ => True
      | .fuelOut => True) ∧
    edgeWeight (g.add_edge u v w).edges u v = some w ∧
    edgeWeight (g.add_edge u v w).edges v u = some w := by
  refine ⟨hs, ?_, ?_, ?_, ?_, ?_⟩
  · intro a b wt h
    rw [edgeWeight_add_edge] at h
    rw [edgeWeight_add_edge]
    by_cases h1 : a = v ∧ b = u
    · by_cases hd1 : b = v ∧ a = u
      · rw [if_pos hd1]
        rwa [if_pos h1] at h
      · rw [if_neg hd1, if_pos ⟨h1.2, h1.1⟩]
        rwa [if_pos h1] at h
    · rw [if_neg h1] at h
      by_cases h2 : a = u ∧ b = v
      · rw [if_pos h2] at h
        rw [if_pos ⟨h2.2, h2.1⟩]
        exact h
      · rw [if_neg h2] at h
        rw [if_neg (fun hd => h2 ⟨hd.2, hd.1⟩), if_neg (fun hd => h1 ⟨hd.2, hd.1⟩)]
        exact hs a b wt h
  · exact symAdj_of_edgesExt (ddGet_edgesExt g.edges x) hs
  · unfold dijkstra
    rcases hl : dijkstraLoopF (fuelBound g x) ⟨[((0 : ℤ), x)], ∅, initDist g x, g.edges⟩ with _ | ev | ⟨d, e⟩
    · exact trivial
    · exact trivial
    · exact symAdj_of_edgesExt (dijkstraLoopF_edgesExt _ _ _ _ hl) hs
  · exact (add_edge_writes_both g u v w).1
  · exact (add_edge_writes_both g u v w).2

/-- Witness for C6: the symmetry hypothesis and the conclusion instantiated at
the empty graph with `x = A`, `u = B`, `v = C`, `w = 5`. -/
theorem graph_ops_preserve_symmetry_witness :
    SymAdj Graph.empty.edges ∧
    (SymAdj (Graph.empty.add_node "A").edges ∧
     SymAdj (Graph.empty.add_edge "B" "C" 5).edges ∧
     SymAdj (Graph.empty.get_neighbors "A").2.edges ∧
     (match dijkstra Graph.empty "A" with
       | .table _ g' => SymAdj g'.edges
       | .keyError _ => True
       | .fuelOut => True) ∧
     edgeWeight (Graph.empty.add_edge "B" "C" 5).edges "B" "C" = some 5 ∧
     edgeWeight (Graph.empty.add_edge "B" "C" 5).edges "C" "B" = some 5) :=
  have hs : SymAdj Graph.empty.edges := fun u v w h => by
    simp [Graph.empty, edgeWeight, dictGet] at h
  ⟨hs, graph_ops_preserve_symmetry Graph.empty "A" "B" "C" 5 hs⟩

/-- Relaxation never increases a recorded tentative distance (and never drops a
key). -/
theorem relaxFold_dist_mono (cd : ℤ) (vis : Finset String) :
    ∀ (nbrs : List (String × ℤ)) (d : String → Option DVal) (hp : List (ℤ × String))
      (d' : String → Option DVal) (h' : List (ℤ × String)),
      relaxFold cd vis nbrs d hp = .ok (d', h') →
      ∀ v x, d v = some x → ∃ y, d' v = some y ∧ y ≤ x := by
  intro nbrs
  induction nbrs with
  | nil =>
    intro d hp d' h' h v x hx
    cases h
    exact ⟨x, hx, le_refl x⟩
  | cons p rest ih =>
    intro d hp d' h' h v x hx
    rcases p with ⟨nv, w⟩
    simp only [relaxFold] at h
    by_cases hv : nv ∈ vis
    · rw [if_pos hv] at h
      exact ih _ _ _ _ h v x hx
    · rw [if_neg hv] at h
      rcases hd : d nv with _ | dv
      · rw [hd] at h
        cases h
      · rw [hd] at h
        dsimp only at h
        by_cases hlt : ((cd + w : ℤ) : DVal) < dv
        · rw [if_pos hlt] at h
          by_cases hveq : v = nv
          · subst hveq
            have hd1 : (fun y => if y = v then some ((cd + w : ℤ) : DVal) else d y) v
                = some ((cd + w : ℤ) : DVal) := by simp
            obtain ⟨y, hy, hle⟩ := ih _ _ _ _ h v _ hd1
            have hxd : dv = x := by
              rw [hd] at hx
              exact Option.some.inj hx
            exact ⟨y, hy, le_trans hle (le_of_lt (hxd ▸ hlt))⟩
          · exact ih _ _ _ _ h v x (by rw [if_neg hveq]; exact hx)
        · rw [if_neg hlt] at h
          exact ih _ _ _ _ h v x hx

/-- Claim C7: one iteration of the main `while` loop never increases any
recorded tentative distance — for every state of every run, each vertex's table
entry after the step is at most its entry before it. -/
theorem dijkstra_step_monotone {s s' : DState} (h : dijkstraStep s = .next s') :
    ∀ v x, s.dist v = some x → ∃ y, s'.dist v = some y ∧ y ≤ x := by
  obtain ⟨shp, svis, sd, se⟩ := s
  rcases hp : popMin shp with _ | ⟨⟨cd, current⟩, rest⟩
  · rw [dijkstraStep_eq_done _ _ _ _ hp] at h
    cases h
  · rw [dijkstraStep_eq_pop _ _ _ _ _ _ _ hp] at h
    by_cases hc : current ∈ svis
    · rw [if_pos hc] at h
      cases h
      intro v x hx
      exact ⟨x, hx, le_refl x⟩
    · rw [if_neg hc] at h
      rcases hr : relaxFold cd (insert current svis) (ddGet se current).1 sd rest
        with ev | ⟨d', h'⟩
      · rw [hr] at h
        cases h
      · rw [hr] at h
        cases h
        exact relaxFold_dist_mono cd (insert current svis) _ _ _ _ _ hr

/-- Witness for C7: a concrete loop iteration together with the monotonicity of
its distance table. -/
theorem dijkstra_step_monotone_witness :
    dijkstraStep stepWitState = .next stepWitState' ∧
    (∀ v x, stepWitState.dist v = some x → ∃ y, stepWitState'.dist v = some y ∧ y ≤ x) :=
  ⟨rfl, @dijkstra_step_monotone stepWitState stepWitState' rfl⟩

/-- A dict in which every lookup misses is empty. -/
theorem eq_nil_of_dictGet_none {β : Type} (l : List (String × β))
    (h : ∀ v, dictGet l v = none) : l = [] := by
  cases l with
  | nil => rfl
  | cons p rest =>
    obtain ⟨k, x⟩ := p
    have hk := h k
    simp [dictGet] at hk

/-- Extension by empty records does not change any effective neighbor list. -/
theorem edgesExt_effEq {e e' : EDict} (hext : EdgesExt e e') : EffEq e e' := by
  intro k
  rcases h : dictGet e k with _ | l
  · rcases h' : dictGet e' k with _ | l'
    · simp [ddGet, h, h']
    · have hnone : ∀ v, dictGet l' v = none := by
        intro v
        have hw := hext.2 k v
        simp only [edgeWeight, h, h'] at hw
        exact hw
      simp [ddGet, h, h', eq_nil_of_dictGet_none l' hnone]
  · have h' := hext.1 k l h
    simp [ddGet, h, h']

/-- Bisimulation: runs from states differing only in effectively equal adjacency
data produce matching outcomes and identical distance tables. -/
theorem dijkstraLoopF_effEq :
    ∀ (n : ℕ) (hp : List (ℤ × String)) (vis : Finset String) (d : String → Option DVal)
      (e₁ e₂ : EDict), EffEq e₁ e₂ →
      LoopResMatch (dijkstraLoopF n ⟨hp, vis, d, e₁⟩) (dijkstraLoopF n ⟨hp, vis, d, e₂⟩) := by
  intro n
  induction n with
  | zero =>
    intro hp vis d e₁ e₂ he
    exact trivial
  | succ n ih =>
    intro hp vis d e₁ e₂ he
    unfold dijkstraLoopF
    rcases hpm : popMin hp with _ | ⟨⟨cd, current⟩, rest⟩
    · rw [dijkstraStep_eq_done _ _ _ _ hpm, dijkstraStep_eq_done _ _ _ _ hpm]
      exact rfl
    · rw [dijkstraStep_eq_pop _ _ _ _ _ _ _ hpm, dijkstraStep_eq_pop _ _ _ _ _ _ _ hpm]
      by_cases hc : current ∈ vis
      · rw [if_pos hc, if_pos hc]
        exact ih rest vis d e₁ e₂ he
      · rw [if_neg hc, if_neg hc]
        rw [he current]
        have he' : EffEq (ddGet e₁ current).2 (ddGet e₂ current).2 := by
          intro k
          calc (ddGet (ddGet e₁ current).2 k).1
              = (ddGet e₁ k).1 := (edgesExt_effEq (ddGet_edgesExt e₁ current) k).symm
            _ = (ddGet e₂ k).1 := he k
            _ = (ddGet (ddGet e₂ current).2 k).1 :=
                edgesExt_effEq (ddGet_edgesExt e₂ current) k
        rcases hr : relaxFold cd (insert current vis) (ddGet e₂ current).1 d rest
          with ev | ⟨d', h'⟩
        · exact rfl
        · exact ih h' (insert current vis) d' _ _ he'

/-- A defaultdict lookup does not change the total number of adjacency entries. -/
theorem totalE_ddGet (e : EDict) (k : String) : totalE (ddGet e k).2 = totalE e := by
  unfold ddGet
  rcases h : dictGet e k with _ | d
  · simp [totalE]
  · rfl

/-- One loop iteration does not change the total number of adjacency entries. -/
theorem dijkstraStep_totalE {s s' : DState} (h : dijkstraStep s = .next s') :
    totalE s'.edges = totalE s.edges := by
  obtain ⟨shp, svis, sd, se⟩ := s
  rcases hp : popMin shp with _ | ⟨⟨cd, current⟩, rest⟩
  · rw [dijkstraStep_eq_done _ _ _ _ hp] at h
    cases h
  · rw [dijkstraStep_eq_pop _ _ _ _ _ _ _ hp] at h
    by_cases hc : current ∈ svis
    · rw [if_pos hc] at h
      cases h
      rfl
    · rw [if_neg hc] at h
      rcases hr : relaxFold cd (insert current svis) (ddGet se current).1 sd rest
        with ev | ⟨d', h'⟩
      · rw [hr] at h
        cases h
      · rw [hr] at h
        cases h
        exact totalE_ddGet _ _

/-- A completed run does not change the total number of adjacency entries. -/
theorem dijkstraLoopF_totalE :
    ∀ (n : ℕ) (s : DState) (d : String → Option DVal) (e : EDict),
      dijkstraLoopF n s = .tableRes d e → totalE e = totalE s.edges := by
  intro n
  induction n with
  | zero =>
    intro s d e h
    cases h
  | succ n ih =>
    intro s d e h
    unfold dijkstraLoopF at h
    rcases hs : dijkstraStep s with _ | v | s'
    · rw [hs] at h
      cases h
      rfl
    · rw [hs] at h
      cases h
    · rw [hs] at h
      exact (ih s' d e h).trans (dijkstraStep_totalE hs)

/-- Definitional unfolding of `dijkstra`. -/
theorem dijkstra_unfold (g : Graph) (start : String) :
    dijkstra g start =
      match dijkstraLoopF (fuelBound g start)
          ⟨[((0 : ℤ), start)], ∅, initDist g start, g.edges⟩ with
      | .out => .fuelOut
      | .keyErrRes v => .keyError v
      | .tableRes d e => .table d ⟨e, g.nodes⟩ := rfl

/-- Claim C8: the computation is deterministic and repeatable — when a query
completes with a table, querying again with the same start on the graph exactly
as the first call left it (the caller not having mutated it) returns the
identical distance table. -/
theorem dijkstra_idempotent (g : Graph) (start : String) :
    match dijkstra g start with
    | .table d g' =>
        (match dijkstra g' start with
          | .table d₂ _ => d₂ = d
          | .keyError _ => False
          | .fuelOut => False)
    | .keyError _ => True
    | .fuelOut => True := by
  rw [dijkstra_unfold g start]
  rcases hl : dijkstraLoopF (fuelBound g start) ⟨[((0 : ℤ), start)], ∅, initDist g start, g.edges⟩ with _ | v | ⟨d, e⟩
  · exact trivial
  · exact trivial
  · dsimp only
    rw [dijkstra_unfold ⟨e, g.nodes⟩ start]
    have hfuel : fuelBound ⟨e, g.nodes⟩ start = fuelBound g start := by
      unfold fuelBound
      rw [dijkstraLoopF_totalE _ _ _ _ hl]
    have hinit : initDist ⟨e, g.nodes⟩ start = initDist g start := rfl
    rw [hfuel, hinit]
    have hext := dijkstraLoopF_edgesExt _ _ _ _ hl
    have heff : EffEq e g.edges := fun k => (edgesExt_effEq hext k).symm
    have hb := dijkstraLoopF_effEq (fuelBound g start) [((0 : ℤ), start)] ∅
      (initDist g start) e g.edges heff
    rw [hl] at hb
    rcases hl2 : dijkstraLoopF (fuelBound g start)
        ⟨[((0 : ℤ), start)], ∅, initDist g start, e⟩ with _ | v2 | ⟨d2, e2⟩
    · rw [hl2] at hb
      exact hb.elim
    · rw [hl2] at hb
      exact hb.elim
    · rw [hl2] at hb
      exact hb

/-- `strLtb` is irreflexive. -/
theorem strLtb_irrefl : ∀ l : List Char, strLtb l l = false := by
  intro l
  induction l with
  | nil => rfl
  | cons a as ih => simp [strLtb, ih]

/-- `strLtb` is transitive. -/
theorem strLtb_trans :
    ∀ {a b c : List Char}, strLtb a b = true → strLtb b c = true → strLtb a c = true := by
  intro a
  induction a with
  | nil =>
    intro b c hab hbc
    cases b with
    | nil => cases hab
    | cons y bs =>
      cases c with
      | nil => cases hbc
      | cons z cs => rfl
  | cons x as ih =>
    intro b c hab hbc
    cases b with
    | nil => cases hab
    | cons y bs =>
      cases c with
      | nil => cases hbc
      | cons z cs =>
        simp only [strLtb] at hab hbc ⊢
        by_cases hxy : x.val.toNat < y.val.toNat
        · by_cases hyz : y.val.toNat < z.val.toNat
          · simp [Nat.lt_trans hxy hyz]
          · by_cases hzy : z.val.toNat < y.val.toNat
            · rw [if_neg hyz, if_pos hzy] at hbc
              cases hbc
            · have : x.val.toNat < z.val.toNat := by omega
              simp [this]
        · by_cases hyx : y.val.toNat < x.val.toNat
          · rw [if_neg hxy, if_pos hyx] at hab
            cases hab
          · rw [if_neg hxy, if_neg hyx] at hab
            by_cases hyz : y.val.toNat < z.val.toNat
            · have : x.val.toNat < z.val.toNat := by omega
              simp [this]
            · by_cases hzy : z.val.toNat < y.val.toNat
              · rw [if_neg hyz, if_pos hzy] at hbc
                cases hbc
              · rw [if_neg hyz, if_neg hzy] at hbc
                have h1 : ¬x.val.toNat < z.val.toNat := by omega
                have h2 : ¬z.val.toNat < x.val.toNat := by omega
                rw [if_neg h1, if_neg h2]
                exact ih hab hbc

/-- Two lists neither of which is `strLtb`-below the other are equal. -/
theorem strLtb_conn :
    ∀ {a b : List Char}, strLtb a b = false → strLtb b a = false → a = b := by
  intro a
  induction a with
  | nil =>
    intro b hab hba
    cases b with
    | nil => rfl
    | cons y bs => cases hab
  | cons x as ih =>
    intro b hab hba
    cases b with
    | nil => cases hba
    | cons y bs =>
      simp only [strLtb] at hab hba
      by_cases hxy : x.val.toNat < y.val.toNat
      · rw [if_pos hxy] at hab
        cases hab
      · by_cases hyx : y.val.toNat < x.val.toNat
        · rw [if_pos hyx] at hba
          cases hba
        · rw [if_neg hxy, if_neg hyx] at hab
          rw [if_neg hyx, if_neg hxy] at hba
          have hv : x = y := by
            apply Char.ext
            apply UInt32.ext
            omega
          rw [hv, ih hab hba]

/-- `strLtb` is asymmetric. -/
theorem strLtb_asymm {a b : List Char} (h : strLtb a b = true) : strLtb b a = false := by
  cases hba : strLtb b a
  · rfl
  · have := strLtb_trans h hba
    rw [strLtb_irrefl] at this
    cases this

/-- `sLE` is reflexive. -/
theorem sLE_refl (x : String) : sLE x x = true := by
  simp [sLE, strLtb_irrefl]

/-- `sLE` is transitive. -/
theorem sLE_trans {x y z : String} (h1 : sLE x y = true) (h2 : sLE y z = true) :
    sLE x z = true := by
  simp only [sLE, Bool.not_eq_true'] at h1 h2 ⊢
  by_contra hzx
  have hzx' : strLtb z.data x.data = true := by
    cases hc : strLtb z.data x.data
    · exact absurd hc hzx
    · rfl
  cases hxy : strLtb x.data y.data
  · have hd : x.data = y.data := strLtb_conn hxy h1
    rw [hd] at hzx'
    rw [hzx'] at h2
    cases h2
  · have := strLtb_trans hzx' hxy
    rw [this] at h2
    cases h2

/-- `sLE` is total. -/
theorem sLE_total (x y : String) : sLE x y = true ∨ sLE y x = true := by
  simp only [sLE, Bool.not_eq_true']
  cases hxy : strLtb y.data x.data
  · exact .inl rfl
  · exact .inr (strLtb_asymm hxy)

/-- `entryLE` is reflexive. -/
theorem entryLE_refl (a : ℤ × String) : entryLE a a = true := by
  simp [entryLE, sLE_refl]

/-- `entryLE` is total. -/
theorem entryLE_total (a b : ℤ × String) : entryLE a b = true ∨ entryLE b a = true := by
  unfold entryLE
  by_cases h1 : a.1 < b.1
  · left
    rw [if_pos h1]
  · by_cases h2 : b.1 < a.1
    · right
      rw [if_pos h2]
    · rw [if_neg h1, if_neg h2, if_neg h2, if_neg h1]
      exact sLE_total a.2 b.2

/-- `entryLE` is transitive. -/
theorem entryLE_trans {a b c : ℤ × String} (h1 : entryLE a b = true)
    (h2 : entryLE b c = true) : entryLE a c = true := by
  unfold entryLE at h1 h2 ⊢
  by_cases hab : a.1 < b.1
  · by_cases hbc : b.1 < c.1
    · rw [if_pos (by omega : a.1 < c.1)]
    · by_cases hcb : c.1 < b.1
      · rw [if_neg hbc, if_pos hcb] at h2
        cases h2
      · rw [if_pos (by omega : a.1 < c.1)]
  · by_cases hba : b.1 < a.1
    · rw [if_neg hab, if_pos hba] at h1
      cases h1
    · rw [if_neg hab, if_neg hba] at h1
      by_cases hbc : b.1 < c.1
      · rw [if_pos (by omega : a.1 < c.1)]
      · by_cases hcb : c.1 < b.1
        · rw [if_neg hbc, if_pos hcb] at h2
          cases h2
        · rw [if_neg hbc, if_neg hcb] at h2
          rw [if_neg (by omega : ¬a.1 < c.1), if_neg (by omega : ¬c.1 < a.1)]
          exact sLE_trans h1 h2

/-- The heap order respects the distance component. -/
theorem entryLE_le {a b : ℤ × String} (h : entryLE a b = true) : a.1 ≤ b.1 := by
  unfold entryLE at h
  by_cases h1 : a.1 < b.1
  · exact le_of_lt h1
  · by_cases h2 : b.1 < a.1
    · rw [if_neg h1, if_pos h2] at h
      cases h
    · omega

/-- `popMin` never fails on a non-empty heap. -/
theorem popMin_isSome (x : ℤ × String) (xs : List (ℤ × String)) :
    popMin (x :: xs) ≠ none := by
  simp only [popMin]
  rcases hp : popMin xs with _ | ⟨m, rest⟩
  · simp
  · dsimp only
    by_cases hif : entryLE x m = true
    · rw [if_pos hif]
      simp
    · rw [if_neg hif]
      simp

/-- A heap on which `popMin` fails is empty. -/
theorem popMin_eq_nil {l : List (ℤ × String)} (h : popMin l = none) : l = [] := by
  cases l with
  | nil => rfl
  | cons x xs => exact absurd h (popMin_isSome x xs)

/-- `popMin` satisfies `PopSpec`. -/
theorem popMin_spec : ∀ {l : List (ℤ × String)} {m : ℤ × String}
    {rest : List (ℤ × String)}, popMin l = some (m, rest) → PopSpec l m rest := by
  intro l
  induction l with
  | nil =>
    intro m rest h
    cases h
  | cons x xs ih =>
    intro m rest h
    simp only [popMin] at h
    rcases hp : popMin xs with _ | ⟨m', rest'⟩
    · rw [hp] at h
      have hnil : xs = [] := popMin_eq_nil hp
      subst hnil
      cases h
      refine ⟨List.mem_cons_self x [], ?_, ?_, rfl, ?_⟩
      · intro y hy
        cases hy
      · intro y hy
        rcases List.mem_cons.mp hy with h1 | h1
        · exact .inl h1
        · cases h1
      · intro y hy
        rcases List.mem_cons.mp hy with h1 | h1
        · rw [h1]
          exact entryLE_refl x
        · cases h1
    · rw [hp] at h
      dsimp only at h
      have spec := ih hp
      by_cases hle : entryLE x m' = true
      · rw [if_pos hle] at h
        cases h
        refine ⟨List.mem_cons_self x xs, ?_, ?_, rfl, ?_⟩
        · intro y hy
          exact List.mem_cons_of_mem x hy
        · intro y hy
          exact List.mem_cons.mp hy
        · intro y hy
          rcases List.mem_cons.mp hy with h1 | h1
          · rw [h1]
            exact entryLE_refl x
          · exact entryLE_trans hle (spec.isMin y h1)
      · rw [if_neg hle] at h
        cases h
        have hmx : entryLE m x = true := by
          rcases entryLE_total x m with h1 | h1
          · exact absurd h1 hle
          · exact h1
        refine ⟨List.mem_cons_of_mem x spec.mem, ?_, ?_, ?_, ?_⟩
        · intro y hy
          rcases List.mem_cons.mp hy with h1 | h1
          · rw [h1]
            exact List.mem_cons_self x xs
          · exact List.mem_cons_of_mem x (spec.sub y h1)
        · intro y hy
          rcases List.mem_cons.mp hy with h1 | h1
          · right
            rw [h1]
            exact List.mem_cons_self x rest'
          · rcases spec.cover y h1 with h2 | h2
            · exact .inl h2
            · exact .inr (List.mem_cons_of_mem x h2)
        · simp only [List.length_cons]
          rw [← spec.len]
        · intro y hy
          rcases List.mem_cons.mp hy with h1 | h1
          · rw [h1]
            exact hmx
          · exact spec.isMin y h1

/-- A bounded table value below a coerced integer is itself a coerced integer
bounded by it. -/
theorem dval_le_coe {y : DVal} {z : ℤ} (h : y ≤ ((z : ℤ) : DVal)) :
    ∃ yz : ℤ, y = ((yz : ℤ) : DVal) ∧ yz ≤ z :=
  WithTop.le_coe_iff.mp h

/-- `relaxFold` satisfies `RelaxSpec`. -/
theorem relaxFold_spec (cd : ℤ) (vis : Finset String) :
    ∀ (nbrs : List (String × ℤ)) (d : String → Option DVal) (hp : List (ℤ × String))
      (d' : String → Option DVal) (h' : List (ℤ × String)),
      relaxFold cd vis nbrs d hp = .ok (d', h') → RelaxSpec cd vis nbrs d hp d' h' := by
  intro nbrs
  induction nbrs with
  | nil =>
    intro d hp d' h' heq
    cases heq
    refine ⟨fun v => rfl, fun v => .inl rfl, ?_, fun p hq => hq, fun p hq => .inl hq, by simp⟩
    intro v w hw
    cases hw
  | cons q rest ih =>
    intro d hp d' h' heq
    rcases q with ⟨nv, w⟩
    simp only [relaxFold] at heq
    by_cases hv : nv ∈ vis
    · rw [if_pos hv] at heq
      have spec := ih d hp d' h' heq
      refine ⟨spec.keys, ?_, ?_, spec.hpSub, ?_, ?_⟩
      · intro v
        rcases spec.dich v with h1 | ⟨hnv, w', hw', hval, hmem⟩
        · exact .inl h1
        · exact .inr ⟨hnv, w', List.mem_cons_of_mem _ hw', hval, hmem⟩
      · intro v w' hw'
        rcases List.mem_cons.mp hw' with h1 | h1
        · cases h1
          exact .inl hv
        · exact spec.relaxed v w' h1
      · intro p hq
        rcases spec.newMem p hq with h1 | ⟨hsome, ⟨w', hw', hval⟩, hnvis⟩
        · exact .inl h1
        · exact .inr ⟨hsome, ⟨w', List.mem_cons_of_mem _ hw', hval⟩, hnvis⟩
      · calc h'.length ≤ hp.length + rest.length := spec.len
          _ ≤ hp.length + (rest.length + 1) := by omega
          _ = hp.length + (⟨nv, w⟩ :: rest : List (String × ℤ)).length := by simp
    · rw [if_neg hv] at heq
      rcases hd : d nv with _ | dv
      · rw [hd] at heq
        cases heq
      · rw [hd] at heq
        dsimp only at heq
        by_cases hlt : ((cd + w : ℤ) : DVal) < dv
        · rw [if_pos hlt] at heq
          have spec := ih _ _ d' h' heq
          refine ⟨?_, ?_, ?_, ?_, ?_, ?_⟩
          · intro v
            rw [spec.keys v]
            by_cases hvn : v = nv
            · subst hvn
              rw [hd]
              simp
            · simp [hvn]
          · intro v
            rcases spec.dich v with h1 | ⟨hnv, w', hw', hval, hmem⟩
            · by_cases hvn : v = nv
              · subst hvn
                right
                refine ⟨hv, w, List.mem_cons_self _ _, ?_, ?_⟩
                · rw [h1]
                  simp
                · exact spec.hpSub _ (by simp)
              · left
                rw [h1]
                simp [hvn]
            · exact .inr ⟨hnv, w', List.mem_cons_of_mem _ hw', hval, hmem⟩
          · intro v w' hw'
            rcases List.mem_cons.mp hw' with h1 | h1
            · cases h1
              right
              have hd1 : (fun x => if x = nv then some ((cd + w : ℤ) : DVal) else d x) nv
                  = some ((cd + w : ℤ) : DVal) := by simp
              obtain ⟨y, hy, hle⟩ := relaxFold_dist_mono cd vis rest _ _ _ _ heq nv _ hd1
              obtain ⟨yz, rfl, hyz⟩ := dval_le_coe hle
              exact ⟨yz, hy, hyz⟩
            · exact spec.relaxed v w' h1
          · intro p hq
            exact spec.hpSub p (by simp [hq])
          · intro p hq
            rcases spec.newMem p hq with h1 | ⟨hsome, ⟨w', hw', hval⟩, hnvis⟩
            · rcases List.mem_append.mp h1 with h2 | h2
              · exact .inl h2
              · right
                have hpv : p = (cd + w, nv) := by simpa using h2
                subst hpv
                exact ⟨by rw [hd]; rfl, ⟨w, List.mem_cons_self _ _, rfl⟩, hv⟩
            · right
              refine ⟨?_, ⟨w', List.mem_cons_of_mem _ hw', hval⟩, hnvis⟩
              by_cases hvn : p.2 = nv
              · rw [hvn, hd]
                rfl
              · rw [← hsome]
                simp [hvn]
          · have := spec.len
            simp only [List.length_append, List.length_singleton] at this
            simp only [List.length_cons]
            omega
        · rw [if_neg hlt] at heq
          have spec := ih d hp d' h' heq
          refine ⟨spec.keys, ?_, ?_, spec.hpSub, ?_, ?_⟩
          · intro v
            rcases spec.dich v with h1 | ⟨hnv, w', hw', hval, hmem⟩
            · exact .inl h1
            · exact .inr ⟨hnv, w', List.mem_cons_of_mem _ hw', hval, hmem⟩
          · intro v w' hw'
            rcases List.mem_cons.mp hw' with h1 | h1
            · cases h1
              right
              have hdv : dv ≤ ((cd + w : ℤ) : DVal) := not_lt.mp hlt
              obtain ⟨dvz, rfl, hdvz⟩ := dval_le_coe hdv
              obtain ⟨y, hy, hle⟩ := relaxFold_dist_mono cd vis rest _ _ _ _ heq nv _ hd
              obtain ⟨yz, rfl, hyz⟩ := dval_le_coe hle
              exact ⟨yz, hy, le_trans hyz hdvz⟩
            · exact spec.relaxed v w' h1
          · intro p hq
            rcases spec.newMem p hq with h1 | ⟨hsome, ⟨w', hw', hval⟩, hnvis⟩
            · exact .inl h1
            · exact .inr ⟨hsome, ⟨w', List.mem_cons_of_mem _ hw', hval⟩, hnvis⟩
          · calc h'.length ≤ hp.length + rest.length := spec.len
              _ ≤ hp.length + (rest.length + 1) := by omega
              _ = hp.length + (⟨nv, w⟩ :: rest : List (String × ℤ)).length := by simp

/-- A successful lookup points at an actual binding. -/
theorem dictGet_mem {β : Type} :
    ∀ {e : List (String × β)} {k : String} {l : β}, dictGet e k = some l → (k, l) ∈ e := by
  intro e
  induction e with
  | nil =>
    intro k l h
    cases h
  | cons p rest ih =>
    intro k l h
    rcases p with ⟨pk, px⟩
    simp only [dictGet] at h
    by_cases hk : pk = k
    · subst hk
      rw [if_pos rfl] at h
      cases h
      exact List.mem_cons_self _ _
    · rw [if_neg hk] at h
      exact List.mem_cons_of_mem _ (ih h)

/-- Every effective neighbor comes from a recorded binding. -/
theorem ddGet_fst_mem (e : EDict) (k : String) :
    ∀ q ∈ (ddGet e k).1, ∃ p, p ∈ e ∧ q ∈ p.2 := by
  intro q hq
  unfold ddGet at hq
  rcases h : dictGet e k with _ | l
  · rw [h] at hq
    cases hq
  · rw [h] at hq
    exact ⟨(k, l), dictGet_mem h, hq⟩

/-- A stored neighbor list is no longer than the total entry count. -/
theorem dictGet_len_le_totalE {e : EDict} {k : String} {l : List (String × ℤ)}
    (h : dictGet e k = some l) : l.length ≤ totalE e := by
  have hm : (k, l) ∈ e := dictGet_mem h
  have : l.length ∈ e.map (fun p => p.2.length) := List.mem_map_of_mem _ hm
  exact List.single_le_sum (fun x _ => Nat.zero_le x) _ this

/-- The effective neighbor list is no longer than the total entry count. -/
theorem ddGet_fst_len (e : EDict) (k : String) : (ddGet e k).1.length ≤ totalE e := by
  unfold ddGet
  rcases h : dictGet e k with _ | l
  · simp
  · exact dictGet_len_le_totalE h

/-- Each loop iteration preserves `FuelInv` and strictly decreases the measure. -/
theorem dijkstraStep_fuel {V : Finset String} {T : ℕ} {s s' : DState}
    (hI : FuelInv V T s) (h : dijkstraStep s = .next s') :
    FuelInv V T s' ∧ fuelMeasure V T s' < fuelMeasure V T s := by
  obtain ⟨shp, svis, sd, se⟩ := s
  obtain ⟨heapV, keysV, tot⟩ := hI
  rcases hp : popMin shp with _ | ⟨⟨cd, current⟩, rest⟩
  · rw [dijkstraStep_eq_done _ _ _ _ hp] at h
    cases h
  · have pspec := popMin_spec hp
    rw [dijkstraStep_eq_pop _ _ _ _ _ _ _ hp] at h
    by_cases hc : current ∈ svis
    · rw [if_pos hc] at h
      cases h
      refine ⟨⟨fun p hq => heapV p (pspec.sub p hq), keysV, tot⟩, ?_⟩
      unfold fuelMeasure
      dsimp only
      apply Nat.add_lt_add_right
      have := pspec.len
      omega
    · rw [if_neg hc] at h
      rcases hr : relaxFold cd (insert current svis) (ddGet se current).1 sd rest
        with ev | ⟨d', h'⟩
      · rw [hr] at h
        cases h
      · rw [hr] at h
        cases h
        have rspec := relaxFold_spec cd (insert current svis) _ _ _ _ _ hr
        have hcur : current ∈ V := heapV (cd, current) pspec.mem
        refine ⟨⟨?_, ?_, ?_⟩, ?_⟩
        · intro p hq
          rcases rspec.newMem p hq with h1 | ⟨hsome, _, _⟩
          · exact heapV p (pspec.sub p h1)
          · exact keysV p.2 hsome
        · intro v hv
          rw [rspec.keys v] at hv
          exact keysV v hv
        · rw [totalE_ddGet]
          exact tot
        · unfold fuelMeasure
          dsimp only
          have hsd : V \ insert current svis = (V \ svis).erase current :=
            Finset.sdiff_insert V svis current
          have hmem : current ∈ V \ svis := Finset.mem_sdiff.mpr ⟨hcur, hc⟩
          have hA : 1 ≤ (V \ svis).card := Finset.card_pos.mpr ⟨current, hmem⟩
          have hcard : ((V \ svis).erase current).card = (V \ svis).card - 1 :=
            Finset.card_erase_of_mem hmem
          have hexp : (V \ svis).card * (1 + T)
              = ((V \ svis).card - 1) * (1 + T) + (1 + T) := by
            conv_lhs => rw [← Nat.sub_add_cancel hA]
            rw [add_mul, one_mul]
          have hlen1 : h'.length ≤ rest.length + (ddGet se current).1.length := rspec.len
          have hlen2 : (ddGet se current).1.length ≤ T := tot ▸ ddGet_fst_len se current
          have hlen3 : rest.length + 1 = shp.length := pspec.len
          rw [hsd, hcard, hexp]
          omega

/-- With the invariant and enough fuel, the loop never runs out. -/
theorem dijkstraLoopF_no_out (V : Finset String) (T : ℕ) :
    ∀ (n : ℕ) (s : DState), FuelInv V T s → fuelMeasure V T s < n →
      dijkstraLoopF n s ≠ .out := by
  intro n
  induction n with
  | zero =>
    intro s hI hm
    exact absurd hm (by omega)
  | succ n ih =>
    intro s hI hm
    unfold dijkstraLoopF
    rcases hs : dijkstraStep s with _ | v | s'
    · simp
    · simp
    · obtain ⟨hI', hdec⟩ := dijkstraStep_fuel hI hs
      exact ih s' hI' (by omega)

/-- The initial state of a query satisfies the fuel invariant. -/
theorem initFuelInv (g : Graph) (start : String) :
    FuelInv (insert start g.nodes.toFinset) (totalE g.edges)
      ⟨[((0 : ℤ), start)], ∅, initDist g start, g.edges⟩ := by
  refine ⟨?_, ?_, rfl⟩
  · intro p hq
    rcases List.mem_cons.mp hq with h1 | h1
    · rw [h1]
      exact Finset.mem_insert_self start _
    · cases h1
  · intro v hv
    unfold initDist at hv
    dsimp only at hv
    by_cases hs : v = start
    · rw [hs]
      exact Finset.mem_insert_self start _
    · rw [if_neg hs] at hv
      by_cases hn : v ∈ g.nodes
      · exact Finset.mem_insert_of_mem (List.mem_toFinset.mpr hn)
      · rw [if_neg hn] at hv
        cases hv

/-- The model's fuel bound is never reached: the `while` loop of the source
always terminates, and `.fuelOut` is dead code of the embedding. -/
theorem dijkstra_never_fuelOut (g : Graph) (start : String) :
    dijkstra g start ≠ .fuelOut := by
  rw [dijkstra_unfold]
  have hmeas : fuelMeasure (insert start g.nodes.toFinset) (totalE g.edges)
      ⟨[((0 : ℤ), start)], ∅, initDist g start, g.edges⟩ < fuelBound g start := by
    unfold fuelMeasure fuelBound
    simp only [Finset.sdiff_empty, List.length_cons, List.length_nil]
    rw [add_mul, one_mul]
    omega
  have hno := dijkstraLoopF_no_out (insert start g.nodes.toFinset) (totalE g.edges)
    (fuelBound g start) ⟨[((0 : ℤ), start)], ∅, initDist g start, g.edges⟩
    (initFuelInv g start) hmeas
  rcases hl : dijkstraLoopF (fuelBound g start)
      ⟨[((0 : ℤ), start)], ∅, initDist g start, g.edges⟩ with _ | v | ⟨d, e⟩
  · exact absurd hl hno
  · intro hcon
    cases hcon
  · intro hcon
    cases hcon

/-- The relaxation completes when every neighbor has a table entry. -/
theorem relaxFold_ok (cd : ℤ) (vis : Finset String) :
    ∀ (nbrs : List (String × ℤ)) (d : String → Option DVal) (hp : List (ℤ × String)),
      (∀ q ∈ nbrs, (d q.1).isSome = true) →
      ∃ d' h', relaxFold cd vis nbrs d hp = .ok (d', h') := by
  intro nbrs
  induction nbrs with
  | nil =>
    intro d hp hcond
    exact ⟨d, hp, rfl⟩
  | cons q rest ih =>
    intro d hp hcond
    rcases q with ⟨nv, w⟩
    simp only [relaxFold]
    by_cases hv : nv ∈ vis
    · rw [if_pos hv]
      exact ih d hp (fun q hq => hcond q (List.mem_cons_of_mem _ hq))
    · rw [if_neg hv]
      have hnv : (d nv).isSome = true := hcond (nv, w) (List.mem_cons_self _ _)
      rcases hd : d nv with _ | dv
      · rw [hd] at hnv
        cases hnv
      · dsimp only
        by_cases hlt : ((cd + w : ℤ) : DVal) < dv
        · rw [if_pos hlt]
          apply ih
          intro q hq
          by_cases hqe : q.1 = nv
          · simp [hqe]
          · dsimp only
            rw [if_neg hqe]
            exact hcond q (List.mem_cons_of_mem _ hq)
        · rw [if_neg hlt]
          exact ih d hp (fun q hq => hcond q (List.mem_cons_of_mem _ hq))

/-- One step never raises `KeyError` under `SafeInv`, and preserves it. -/
theorem dijkstraStep_safe {N : List String} {s : DState} (hS : SafeInv N s) :
    (∀ v, dijkstraStep s ≠ .err v) ∧
    (∀ s', dijkstraStep s = .next s' → SafeInv N s') := by
  obtain ⟨shp, svis, sd, se⟩ := s
  obtain ⟨keysN, edgesN⟩ := hS
  rcases hp : popMin shp with _ | ⟨⟨cd, current⟩, rest⟩
  · rw [dijkstraStep_eq_done _ _ _ _ hp]
    exact ⟨(fun v hco => nomatch hco), (fun s' hco => nomatch hco)⟩
  · rw [dijkstraStep_eq_pop _ _ _ _ _ _ _ hp]
    by_cases hc : current ∈ svis
    · rw [if_pos hc]
      refine ⟨(fun v hco => nomatch hco), (fun s' hco => ?_)⟩
      cases hco
      exact ⟨keysN, edgesN⟩
    · rw [if_neg hc]
      have hcond : ∀ q ∈ (ddGet se current).1, (sd q.1).isSome = true := by
        intro q hq
        obtain ⟨p, hpmem, hqmem⟩ := ddGet_fst_mem se current q hq
        exact keysN q.1 (edgesN p hpmem q hqmem)
      obtain ⟨d', h', hok⟩ := relaxFold_ok cd (insert current svis) _ sd rest hcond
      rw [hok]
      have rspec := relaxFold_spec cd (insert current svis) _ _ _ _ _ hok
      refine ⟨(fun v hco => nomatch hco), (fun s' hco => ?_)⟩
      cases hco
      refine ⟨?_, ?_⟩
      · intro v hvN
        dsimp only
        rw [rspec.keys v]
        exact keysN v hvN
      · intro p hpmem q hqmem
        dsimp only at hpmem
        unfold ddGet at hpmem
        rcases hdg : dictGet se current with _ | l
        · rw [hdg] at hpmem
          dsimp only at hpmem
          rcases List.mem_append.mp hpmem with h1 | h1
          · exact edgesN p h1 q hqmem
          · have hpc : p = (current, []) := by simpa using h1
            rw [hpc] at hqmem
            cases hqmem
        · rw [hdg] at hpmem
          exact edgesN p hpmem q hqmem

/-- Under `SafeInv`, the loop never reports a `KeyError`. -/
theorem dijkstraLoopF_no_keyErr (N : List String) :
    ∀ (n : ℕ) (s : DState), SafeInv N s → ∀ v, dijkstraLoopF n s ≠ .keyErrRes v := by
  intro n
  induction n with
  | zero =>
    intro s hS v hco
    cases hco
  | succ n ih =>
    intro s hS v
    unfold dijkstraLoopF
    rcases hs : dijkstraStep s with _ | ev | s'
    · simp
    · exact absurd hs ((dijkstraStep_safe hS).1 ev)
    · exact ih s' ((dijkstraStep_safe hS).2 s' hs) v

/-- The initial state of a query satisfies `SafeInv` when every recorded edge
endpoint is registered. -/
theorem initSafeInv (g : Graph) (start : String)
    (hreg : ∀ p ∈ g.edges, ∀ q ∈ p.2, q.1 ∈ g.nodes) :
    SafeInv g.nodes ⟨[((0 : ℤ), start)], ∅, initDist g start, g.edges⟩ := by
  refine ⟨?_, hreg⟩
  intro v hv
  dsimp only
  unfold initDist
  by_cases hs : v = start
  · rw [if_pos hs]
    rfl
  · rw [if_neg hs, if_pos hv]
    rfl

/-- The initial state's measure is below the fuel bound. -/
theorem initMeasure_lt (g : Graph) (start : String) :
    fuelMeasure (insert start g.nodes.toFinset) (totalE g.edges)
      ⟨[((0 : ℤ), start)], ∅, initDist g start, g.edges⟩ < fuelBound g start := by
  unfold fuelMeasure fuelBound
  simp only [Finset.sdiff_empty, List.length_cons, List.length_nil]
  rw [add_mul, one_mul]
  omega

/-- Relaxation leaves the entry of a vertex that is not a recorded neighbor
unchanged. -/
theorem relaxFold_not_neighbor {cd : ℤ} {vis : Finset String} {nbrs : List (String × ℤ)}
    {d d' : String → Option DVal} {hp h' : List (ℤ × String)} {N : List String}
    {start : String} (hns : start ∉ N) (hn : ∀ q ∈ nbrs, q.1 ∈ N)
    (heq : relaxFold cd vis nbrs d hp = .ok (d', h')) : d' start = d start := by
  rcases (relaxFold_spec cd vis nbrs d hp d' h' heq).dich start with h1 | ⟨_, w, hw, _, _⟩
  · exact h1
  · exact absurd (hn (start, w) hw) hns

/-- Under `SafeInv`, a vertex outside `N` keeps its table entry across a loop
iteration: it can never appear as a neighbor. -/
theorem dijkstraStep_start_zero {N : List String} {start : String} {s s' : DState}
    (hS : SafeInv N s) (hns : start ∉ N) (h : dijkstraStep s = .next s') :
    s'.dist start = s.dist start := by
  obtain ⟨shp, svis, sd, se⟩ := s
  obtain ⟨keysN, edgesN⟩ := hS
  rcases hp : popMin shp with _ | ⟨⟨cd, current⟩, rest⟩
  · rw [dijkstraStep_eq_done _ _ _ _ hp] at h
    cases h
  · rw [dijkstraStep_eq_pop _ _ _ _ _ _ _ hp] at h
    by_cases hc : current ∈ svis
    · rw [if_pos hc] at h
      cases h
      rfl
    · rw [if_neg hc] at h
      rcases hr : relaxFold cd (insert current svis) (ddGet se current).1 sd rest
        with ev | ⟨d', h'⟩
      · rw [hr] at h
        cases h
      · rw [hr] at h
        cases h
        have hn : ∀ q ∈ (ddGet se current).1, q.1 ∈ N := by
          intro q hq
          obtain ⟨p, hpmem, hqmem⟩ := ddGet_fst_mem se current q hq
          exact edgesN p hpmem q hqmem
        exact relaxFold_not_neighbor hns hn hr

/-- Under `SafeInv`, a completed run returns a table whose entry at a vertex
outside `N` is its initial entry. -/
theorem dijkstraLoopF_start_zero (N : List String) (start : String) (hns : start ∉ N) :
    ∀ (n : ℕ) (s : DState), SafeInv N s → s.dist start = some 0 →
      ∀ d e, dijkstraLoopF n s = .tableRes d e → d start = some 0 := by
  intro n
  induction n with
  | zero =>
    intro s hS h0 d e h
    cases h
  | succ n ih =>
    intro s hS h0 d e h
    unfold dijkstraLoopF at h
    rcases hs : dijkstraStep s with _ | ev | s2
    · rw [hs] at h
      cases h
      exact h0
    · rw [hs] at h
      cases h
    · rw [hs] at h
      exact ih s2 ((dijkstraStep_safe hS).2 s2 hs)
        ((dijkstraStep_start_zero hS hns hs).trans h0) d e h

/-- Claim C2 (amended): there is no `VertexNotFound` check in the code — even
for a start vertex that is not registered, the query returns a distance table
with `start` mapped to `0` (provided every recorded edge endpoint is a
registered vertex, which rules the separate `KeyError` failure out; since
`start` is unregistered it is never a neighbor, so its entry is never relaxed). -/
theorem dijkstra_unregistered_start_no_error (g : Graph) (start : String)
    (hreg : ∀ p ∈ g.edges, ∀ q ∈ p.2, q.1 ∈ g.nodes) (hns : start ∉ g.nodes) :
    ∃ d g', dijkstra g start = .table d g' ∧ d start = some 0 := by
  rw [dijkstra_unfold]
  rcases hl : dijkstraLoopF (fuelBound g start)
      ⟨[((0 : ℤ), start)], ∅, initDist g start, g.edges⟩ with _ | v | ⟨d, e⟩
  · exact absurd hl (dijkstraLoopF_no_out _ _ _ _ (initFuelInv g start) (initMeasure_lt g start))
  · exact absurd hl (dijkstraLoopF_no_keyErr g.nodes _ _ (initSafeInv g start hreg) v)
  · refine ⟨d, ⟨e, g.nodes⟩, rfl, ?_⟩
    refine dijkstraLoopF_start_zero g.nodes start hns (fuelBound g start) _
      (initSafeInv g start hreg) ?_ d e hl
    show initDist g start start = some 0
    unfold initDist
    rw [if_pos rfl]

/-- Witness for C2 at the graph with the single registered vertex `B` and the
unregistered start `A`. -/
theorem dijkstra_unregistered_start_no_error_witness :
    (∀ p ∈ (Graph.empty.add_node "B").edges, ∀ q ∈ p.2, q.1 ∈ (Graph.empty.add_node "B").nodes) ∧
    "A" ∉ (Graph.empty.add_node "B").nodes ∧
    ∃ d g', dijkstra (Graph.empty.add_node "B") "A" = .table d g' ∧ d "A" = some 0 :=
  ⟨by decide, by decide,
    dijkstra_unregistered_start_no_error (Graph.empty.add_node "B") "A" (by decide) (by decide)⟩

/-- In a dict with distinct keys, membership determines the lookup. -/
theorem mem_dictGet {β : Type} :
    ∀ {l : List (String × β)} {v : String} {w : β},
      (l.map Prod.fst).Nodup → (v, w) ∈ l → dictGet l v = some w := by
  intro l
  induction l with
  | nil =>
    intro v w hnd hm
    cases hm
  | cons p rest ih =>
    intro v w hnd hm
    rcases p with ⟨pk, px⟩
    simp only [List.map_cons, List.nodup_cons] at hnd
    rcases List.mem_cons.mp hm with h1 | h1
    · cases h1
      simp [dictGet]
    · have hne : pk ≠ v := by
        intro hco
        subst hco
        exact hnd.1 (List.mem_map_of_mem Prod.fst h1)
      simp only [dictGet, if_neg hne]
      exact ih hnd.2 h1

/-- A recorded weight is non-negative under `NonnegW`. -/
theorem nonnegW_edgeWeight {e : EDict} (hw : NonnegW e) {u v : String} {w : ℤ}
    (h : edgeWeight e u v = some w) : 0 ≤ w := by
  unfold edgeWeight at h
  rcases hg : dictGet e u with _ | l
  · rw [hg] at h
    cases h
  · rw [hg] at h
    exact hw (u, l) (dictGet_mem hg) (v, w) (dictGet_mem h)

/-- A defaultdict lookup preserves inner-key distinctness. -/
theorem edgeKeysWF_ddGet {e : EDict} (hwf : EdgeKeysWF e) (k : String) :
    EdgeKeysWF (ddGet e k).2 := by
  unfold ddGet
  rcases hg : dictGet e k with _ | l
  · intro p hp
    rcases List.mem_append.mp hp with h1 | h1
    · exact hwf p h1
    · have hpk : p = (k, []) := by simpa using h1
      rw [hpk]
      exact List.nodup_nil
  · exact hwf

/-- Bridge from the effective neighbor list to the stored weights. -/
theorem ddGet_fst_edgeWeight {e : EDict} (hwf : EdgeKeysWF e) (k : String)
    {v : String} {w : ℤ} (h : (v, w) ∈ (ddGet e k).1) : edgeWeight e k v = some w := by
  unfold ddGet at h
  rcases hg : dictGet e k with _ | l
  · rw [hg] at h
    cases h
  · rw [hg] at h
    unfold edgeWeight
    rw [hg]
    exact mem_dictGet (hwf (k, l) (dictGet_mem hg)) h

/-- Bridge from a stored weight to the effective neighbor list. -/
theorem edgeWeight_ddGet_fst {e : EDict} (k : String) {v : String} {w : ℤ}
    (h : edgeWeight e k v = some w) : (v, w) ∈ (ddGet e k).1 := by
  unfold edgeWeight at h
  unfold ddGet
  rcases hg : dictGet e k with _ | l
  · rw [hg] at h
    cases h
  · rw [hg] at h
    exact dictGet_mem h

/-- The invariant holds in the initial state. -/
theorem initDijkInv (g : Graph) (start : String) (hwf : EdgeKeysWF g.edges) :
    DijkInv g.edges g.nodes start
      ⟨[((0 : ℤ), start)], ∅, initDist g start, g.edges⟩ := by
  have hstart : initDist g start start = some 0 := by
    unfold initDist
    rw [if_pos rfl]
  have hfin : ∀ v (dv : ℤ), initDist g start v = some ((dv : ℤ) : DVal) →
      v = start ∧ dv = 0 := by
    intro v dv hv
    unfold initDist at hv
    by_cases hvs : v = start
    · refine ⟨hvs, ?_⟩
      rw [if_pos hvs] at hv
      have h0 : ((dv : ℤ) : DVal) = (0 : DVal) := (Option.some.inj hv).symm
      exact_mod_cast h0
    · rw [if_neg hvs] at hv
      by_cases hvn : v ∈ g.nodes
      · rw [if_pos hvn] at hv
        have htop : ((dv : ℤ) : DVal) = (⊤ : DVal) := (Option.some.inj hv).symm
        exact absurd htop (WithTop.coe_ne_top)
      · rw [if_neg hvn] at hv
        cases hv
  refine ⟨?_, fun u v => rfl, hwf, ?_, hstart, ?_, ?_, ?_, ?_, ?_⟩
  · intro v
    dsimp only
    unfold initDist
    by_cases hvs : v = start
    · simp [hvs]
    · by_cases hvn : v ∈ g.nodes
      · simp [hvs, hvn]
      · simp [hvs, hvn]
  · intro v x hv
    dsimp only at hv
    unfold initDist at hv
    by_cases hvs : v = start
    · rw [if_pos hvs] at hv
      cases hv
      exact le_refl 0
    · rw [if_neg hvs] at hv
      by_cases hvn : v ∈ g.nodes
      · rw [if_pos hvn] at hv
        cases hv
        exact le_top
      · rw [if_neg hvn] at hv
        cases hv
  · intro v dv hv
    obtain ⟨hvs, hdv⟩ := hfin v dv hv
    subst hvs
    subst hdv
    refine ⟨[], ?_, ?_, ?_⟩
    · exact_mod_cast Walk.nil
    · exact List.nodup_singleton v
    · intro x hx
      rcases List.mem_cons.mp hx with h1 | h1
      · rw [h1]
        exact Finset.mem_insert_self v _
      · cases h1
  · intro u hu
    exact absurd hu (Finset.not_mem_empty u)
  · intro v dv hnv hv
    obtain ⟨hvs, hdv⟩ := hfin v dv hv
    subst hvs
    subst hdv
    exact List.mem_cons_self _ _
  · intro p hp
    rcases List.mem_cons.mp hp with h1 | h1
    · rw [h1]
      refine ⟨0, ?_, le_refl 0⟩
      dsimp only
      rw [hstart]
      rfl
    · cases h1
  · intro u hu
    exact absurd hu (Finset.not_mem_empty u)

/-- Distance values coerced from integers are injective. -/
theorem dval_coe_inj {a b : ℤ} (h : ((a : ℤ) : DVal) = ((b : ℤ) : DVal)) : a = b :=
  WithTop.coe_inj.mp h

/-- Heart of Dijkstra's correctness: when the lazy-deletion loop pops an
unvisited vertex, the popped key is that vertex's table entry and is a lower
bound on the weight of every walk from `start` to it. -/
theorem dijk_cut (E0 : EDict) (N : List String) (start : String) {s : DState}
    (inv : DijkInv E0 N start s) (hw : NonnegW E0) {cd : ℤ} {current : String}
    {rest : List (ℤ × String)} (hp : popMin s.heap = some ((cd, current), rest))
    (hc : current ∉ s.visited) :
    s.dist current = some ((cd : ℤ) : DVal) ∧
      ∀ vs c, Walk E0 start current vs c → cd ≤ c := by
  have pspec := popMin_spec hp
  obtain ⟨dc, hdc, hdcle⟩ := inv.entries (cd, current) pspec.mem
  have hfresh := inv.fresh current dc hc hdc
  have hcddc : cd ≤ dc := entryLE_le (pspec.isMin (dc, current) hfresh)
  have hdceq : dc = cd := le_antisymm hdcle hcddc
  subst hdceq
  refine ⟨hdc, ?_⟩
  have Q : ∀ v vs c, Walk E0 start v vs c →
      (∃ dv : ℤ, v ∈ s.visited ∧ s.dist v = some ((dv : ℤ) : DVal) ∧ dv ≤ c) ∨ dc ≤ c := by
    intro v vs c hwalk
    induction hwalk with
    | nil =>
      by_cases hsv : start ∈ s.visited
      · left
        refine ⟨0, hsv, ?_, le_refl 0⟩
        rw [inv.start0]
        rfl
      · right
        have hf := inv.fresh start 0 hsv (by rw [inv.start0]; rfl)
        have := entryLE_le (pspec.isMin (0, start) hf)
        simpa using this
    | snoc hwalk2 hedge ih =>
      rename_i u v2 vs2 c2 w2
      have hw2 : 0 ≤ w2 := nonnegW_edgeWeight hw hedge
      rcases ih with ⟨du, huvis, hdu, hduc⟩ | hcdle
      · obtain ⟨du', hdu', hrelax⟩ := inv.relaxedInv u huvis
        have hdueq : du' = du := dval_coe_inj (Option.some.inj (hdu'.symm.trans hdu))
        subst hdueq
        rcases hrelax v2 w2 hedge with hvvis | ⟨dv, hdv, hdvle⟩
        · obtain ⟨dv, hdv, _⟩ := inv.relaxedInv v2 hvvis
          left
          exact ⟨dv, hvvis, hdv, inv.lower v2 hvvis dv hdv _ _ (Walk.snoc hwalk2 hedge)⟩
        · by_cases hvvis : v2 ∈ s.visited
          · left
            exact ⟨dv, hvvis, hdv, by omega⟩
          · right
            have hf := inv.fresh v2 dv hvvis hdv
            have := entryLE_le (pspec.isMin (dv, v2) hf)
            omega
      · right
        omega
  intro vs c hwalk
  rcases Q current vs c hwalk with ⟨dv, hvis, _, _⟩ | h
  · exact absurd hvis hc
  · exact h

/-- The master invariant is preserved by every loop iteration. -/
theorem dijkInv_step (E0 : EDict) (N : List String) (start : String) {s s' : DState}
    (hw : NonnegW E0) (inv : DijkInv E0 N start s) (h : dijkstraStep s = .next s') :
    DijkInv E0 N start s' := by
  obtain ⟨shp, svis, sd, se⟩ := s
  rcases hp : popMin shp with _ | ⟨⟨cd, current⟩, rest⟩
  · rw [dijkstraStep_eq_done _ _ _ _ hp] at h
    cases h
  · have pspec := popMin_spec hp
    rw [dijkstraStep_eq_pop _ _ _ _ _ _ _ hp] at h
    by_cases hc : current ∈ svis
    · rw [if_pos hc] at h
      cases h
      refine ⟨inv.keys, inv.edgesEq, inv.wf, inv.nonneg, inv.start0, inv.reach,
        inv.relaxedInv, ?_, ?_, inv.lower⟩
      · intro v dv hnv hv
        have hin := inv.fresh v dv hnv hv
        rcases pspec.cover (dv, v) hin with h1 | h1
        · exfalso
          apply hnv
          have hv2 : v = current := congrArg Prod.snd h1
          rw [hv2]
          exact hc
        · exact h1
      · intro p hq
        exact inv.entries p (pspec.sub p hq)
    · rw [if_neg hc] at h
      obtain ⟨hcd, hlowcut⟩ := dijk_cut E0 N start inv hw hp hc
      rcases hr : relaxFold cd (insert current svis) (ddGet se current).1 sd rest
        with ev | ⟨d', h'⟩
      · rw [hr] at h
        cases h
      · rw [hr] at h
        cases h
        have rspec := relaxFold_spec cd (insert current svis) _ _ _ _ _ hr
        have hcd0 : (0 : ℤ) ≤ cd := by
          have := inv.nonneg current _ hcd
          exact_mod_cast this
        have hnoupd : ∀ v, v ∈ insert current svis → d' v = sd v := by
          intro v hv
          rcases rspec.dich v with h1 | ⟨hnv, _⟩
          · exact h1
          · exact absurd hv hnv
        have hbridge : ∀ v w, (v, w) ∈ (ddGet se current).1 →
            edgeWeight E0 current v = some w := by
          intro v w hvw
          rw [← inv.edgesEq]
          exact ddGet_fst_edgeWeight inv.wf current hvw
        have hbridge2 : ∀ v w, edgeWeight E0 current v = some w →
            (v, w) ∈ (ddGet se current).1 := by
          intro v w hvw
          apply edgeWeight_ddGet_fst
          rw [inv.edgesEq]
          exact hvw
        refine ⟨?_, ?_, ?_, ?_, ?_, ?_, ?_, ?_, ?_, ?_⟩
        · intro v
          dsimp only
          rw [rspec.keys v]
          exact inv.keys v
        · intro u v
          dsimp only
          rw [(ddGet_edgesExt se current).2 u v]
          exact inv.edgesEq u v
        · exact edgeKeysWF_ddGet inv.wf current
        · intro v x hv
          dsimp only at hv
          rcases rspec.dich v with h1 | ⟨hnv, w, hwmem, hval, _⟩
          · rw [h1] at hv
            exact inv.nonneg v x hv
          · have hx : x = ((cd + w : ℤ) : DVal) := Option.some.inj (hv.symm.trans hval)
            subst hx
            have hw2 : (0 : ℤ) ≤ w := nonnegW_edgeWeight hw (hbridge _ _ hwmem)
            exact_mod_cast (by omega : (0 : ℤ) ≤ cd + w)
        · dsimp only
          rcases rspec.dich start with h1 | ⟨hns2, w, hwmem, hval, _⟩
          · rw [h1]
            exact inv.start0
          · have hw2 : (0 : ℤ) ≤ w := nonnegW_edgeWeight hw (hbridge _ _ hwmem)
            obtain ⟨y, hy, hyle⟩ := relaxFold_dist_mono cd (insert current svis) _ _ _ _ _
              hr start 0 inv.start0
            have hyval : y = ((cd + w : ℤ) : DVal) := Option.some.inj (hy.symm.trans hval)
            subst hyval
            have hle0 : (cd + w : ℤ) ≤ 0 := by exact_mod_cast hyle
            have hzero : cd + w = (0 : ℤ) := le_antisymm hle0 (by omega)
            rw [hval, hzero]
            rfl
        · intro v dv hv
          dsimp only at hv ⊢
          rcases rspec.dich v with h1 | ⟨hnv, w, hwmem, hval, _⟩
          · rw [h1] at hv
            obtain ⟨vs, hwalk, hnd, hsub⟩ := inv.reach v dv hv
            refine ⟨vs, hwalk, hnd, ?_⟩
            intro x hx
            exact Finset.insert_subset_insert v (Finset.subset_insert current svis) (hsub x hx)
          · have hdveq : dv = cd + w := dval_coe_inj (Option.some.inj (hv.symm.trans hval))
            subst hdveq
            have hedge : edgeWeight E0 current v = some w := hbridge _ _ hwmem
            obtain ⟨vsc, hwalkc, hndc, hsubc⟩ := inv.reach current cd hcd
            refine ⟨vsc ++ [v], Walk.snoc hwalkc hedge, ?_, ?_⟩
            · have hvnot : v ∉ start :: vsc := by
                intro hvin
                exact hnv (hsubc v hvin)
              have hsplit : start :: (vsc ++ [v]) = (start :: vsc) ++ [v] := by simp
              rw [hsplit, List.nodup_append]
              refine ⟨hndc, List.nodup_singleton v, ?_⟩
              intro a ha hav
              have : a = v := by simpa using hav
              rw [this] at ha
              exact hvnot ha
            · intro x hx
              rcases List.mem_cons.mp hx with h1 | h1
              · rw [h1]
                exact Finset.mem_insert_of_mem (hsubc start (List.mem_cons_self _ _))
              · rcases List.mem_append.mp h1 with h2 | h2
                · exact Finset.mem_insert_of_mem (hsubc x (List.mem_cons_of_mem _ h2))
                · have hxv : x = v := by simpa using h2
                  rw [hxv]
                  exact Finset.mem_insert_self v _
        · intro u hu
          dsimp only at hu ⊢
          rcases Finset.mem_insert.mp hu with hcur | hold
          · subst hcur
            refine ⟨cd, ?_, ?_⟩
            · rw [hnoupd u (Finset.mem_insert_self _ _)]
              exact hcd
            · intro v w hvw
              rcases rspec.relaxed v w (hbridge2 v w hvw) with h1 | ⟨dv, hdv, hdvle⟩
              · exact .inl h1
              · exact .inr ⟨dv, hdv, hdvle⟩
          · obtain ⟨du, hdu, hrelax⟩ := inv.relaxedInv u hold
            refine ⟨du, ?_, ?_⟩
            · rw [hnoupd u (Finset.mem_insert_of_mem hold)]
              exact hdu
            · intro v w hvw
              rcases hrelax v w hvw with h1 | ⟨dv, hdv, hdvle⟩
              · exact .inl (Finset.mem_insert_of_mem h1)
              · obtain ⟨y, hy, hyle⟩ := relaxFold_dist_mono cd (insert current svis) _ _ _ _ _
                  hr v _ hdv
                obtain ⟨yz, hyz, hyzle⟩ := dval_le_coe hyle
                right
                refine ⟨yz, ?_, by omega⟩
                rw [hy, hyz]
        · intro v dv hnv hv
          dsimp only at hnv hv ⊢
          rcases rspec.dich v with h1 | ⟨hnv2, w, hwmem, hval, hheap⟩
          · rw [h1] at hv
            have hnvold : v ∉ svis := fun hvv => hnv (Finset.mem_insert_of_mem hvv)
            have hin := inv.fresh v dv hnvold hv
            rcases pspec.cover (dv, v) hin with h2 | h2
            · exfalso
              have hveq : v = current := congrArg Prod.snd h2
              exact hnv (hveq ▸ Finset.mem_insert_self current svis)
            · exact rspec.hpSub _ h2
          · have hdveq : dv = cd + w := dval_coe_inj (Option.some.inj (hv.symm.trans hval))
            rw [hdveq]
            exact hheap
        · intro p hq
          dsimp only at hq ⊢
          rcases rspec.newMem p hq with h1 | ⟨hsome, ⟨w, hwm, hp1⟩, hnvis⟩
          · obtain ⟨dv, hdv, hdvle⟩ := inv.entries p (pspec.sub p h1)
            obtain ⟨y, hy, hyle⟩ := relaxFold_dist_mono cd (insert current svis) _ _ _ _ _
              hr p.2 _ hdv
            obtain ⟨yz, hyz, hyzle⟩ := dval_le_coe hyle
            refine ⟨yz, ?_, by omega⟩
            rw [hy, hyz]
          · rcases rspec.relaxed p.2 w hwm with h2 | ⟨dv, hdv, hdvle⟩
            · exact absurd h2 hnvis
            · exact ⟨dv, hdv, by omega⟩
        · intro u hu du hdu vs c hwalk
          dsimp only at hu hdu
          rcases Finset.mem_insert.mp hu with hcur | hold
          · subst hcur
            rw [hnoupd u (Finset.mem_insert_self _ _)] at hdu
            have hdueq : du = cd := dval_coe_inj (Option.some.inj (hdu.symm.trans hcd))
            rw [hdueq]
            exact hlowcut vs c hwalk
          · have hdu2 : sd u = some ((du : ℤ) : DVal) := by
              rw [← hnoupd u (Finset.mem_insert_of_mem hold)]
              exact hdu
            exact inv.lower u hold du hdu2 vs c hwalk

/-- A `.done` step means the heap was exhausted. -/
theorem dijkstraStep_done_pop {s : DState} (h : dijkstraStep s = .done) :
    popMin s.heap = none := by
  obtain ⟨shp, svis, sd, se⟩ := s
  rcases hp : popMin shp with _ | ⟨⟨cd, current⟩, rest⟩
  · rfl
  · rw [dijkstraStep_eq_pop _ _ _ _ _ _ _ hp] at h
    by_cases hc : current ∈ svis
    · rw [if_pos hc] at h
      cases h
    · rw [if_neg hc] at h
      rcases hr : relaxFold cd (insert current svis) (ddGet se current).1 sd rest
        with ev | ⟨d', h'⟩
      · rw [hr] at h
        cases h
      · rw [hr] at h
        cases h

/-- At termination every vertex reachable from `start` has been visited. -/
theorem dijkInv_final (E0 : EDict) (N : List String) (start : String) {s : DState}
    (inv : DijkInv E0 N start s) (hemp : popMin s.heap = none) :
    ∀ v vs c, Walk E0 start v vs c → v ∈ s.visited := by
  have hnil : s.heap = [] := popMin_eq_nil hemp
  intro v vs c hwalk
  induction hwalk with
  | nil =>
    by_cases hsv : start ∈ s.visited
    · exact hsv
    · exfalso
      have hf := inv.fresh start 0 hsv (by rw [inv.start0]; rfl)
      rw [hnil] at hf
      cases hf
  | snoc hwalk2 hedge ih =>
    rename_i u v2 vs2 c2 w2
    obtain ⟨du, hdu, hrelax⟩ := inv.relaxedInv u ih
    rcases hrelax v2 w2 hedge with h1 | ⟨dv, hdv, _⟩
    · exact h1
    · by_cases hvv : v2 ∈ s.visited
      · exact hvv
      · exfalso
        have hf := inv.fresh v2 dv hvv hdv
        rw [hnil] at hf
        cases hf

/-- Completed runs started in an invariant state return optimal distances. -/
theorem dijkstraLoopF_shortest (E0 : EDict) (N : List String) (start : String)
    (hw : NonnegW E0) :
    ∀ (n : ℕ) (s : DState), DijkInv E0 N start s →
      ∀ (d : String → Option DVal) (e : EDict), dijkstraLoopF n s = .tableRes d e →
        ∀ v vs c, Walk E0 start v vs c →
          ∃ dv : ℤ, d v = some ((dv : ℤ) : DVal) ∧
            (∃ vs2, Walk E0 start v vs2 dv ∧ (start :: vs2).Nodup) ∧
            (∀ vs2 c2, Walk E0 start v vs2 c2 → dv ≤ c2) := by
  intro n
  induction n with
  | zero =>
    intro s inv d e h
    cases h
  | succ n ih =>
    intro s inv d e h
    unfold dijkstraLoopF at h
    rcases hs : dijkstraStep s with _ | ev | s2
    · rw [hs] at h
      cases h
      intro v vs c hwalk
      have hemp := dijkstraStep_done_pop hs
      have hvis := dijkInv_final E0 N start inv hemp v vs c hwalk
      obtain ⟨dv, hdv, _⟩ := inv.relaxedInv v hvis
      obtain ⟨vs2, hwalk2, hnd, _⟩ := inv.reach v dv hdv
      exact ⟨dv, hdv, ⟨vs2, hwalk2, hnd⟩,
        fun vs3 c3 hw3 => inv.lower v hvis dv hdv vs3 c3 hw3⟩
    · rw [hs] at h
      cases h
    · rw [hs] at h
      exact ih s2 (dijkInv_step E0 N start hw inv hs) d e h

/-- Claim C1: on a graph with non-negative weights whose edge endpoints are all
registered vertices (with well-formed Python dicts, i.e. distinct inner keys),
`dijkstra` from a registered start returns a table mapping every vertex
reachable from `start` to the minimum walk weight: the entry is attained by a
simple path and bounds every walk from below. -/
theorem dijkstra_computes_shortest_distances (g : Graph) (start : String)
    (hwf : EdgeKeysWF g.edges) (hw : NonnegW g.edges)
    (hreg : ∀ p ∈ g.edges, p.1 ∈ g.nodes ∧ ∀ q ∈ p.2, q.1 ∈ g.nodes)
    (hs : start ∈ g.nodes) :
    ∃ d g', dijkstra g start = .table d g' ∧
      ∀ v vs c, Walk g.edges start v vs c →
        ∃ dv : ℤ, d v = some ((dv : ℤ) : DVal) ∧
          (∃ vs2, Walk g.edges start v vs2 dv ∧ (start :: vs2).Nodup) ∧
          (∀ vs2 c2, Walk g.edges start v vs2 c2 → dv ≤ c2) := by
  rw [dijkstra_unfold]
  rcases hl : dijkstraLoopF (fuelBound g start)
      ⟨[((0 : ℤ), start)], ∅, initDist g start, g.edges⟩ with _ | v | ⟨d, e⟩
  · exact absurd hl
      (dijkstraLoopF_no_out _ _ _ _ (initFuelInv g start) (initMeasure_lt g start))
  · have hreg2 : ∀ p ∈ g.edges, ∀ q ∈ p.2, q.1 ∈ g.nodes :=
      fun p hp q hq => (hreg p hp).2 q hq
    exact absurd hl (dijkstraLoopF_no_keyErr g.nodes _ _ (initSafeInv g start hreg2) v)
  · refine ⟨d, ⟨e, g.nodes⟩, rfl, ?_⟩
    exact dijkstraLoopF_shortest g.edges g.nodes start hw _ _ (initDijkInv g start hwf) d e hl

/-- Witness for C1 on the reference graph of `main()` with start `A`. -/
theorem dijkstra_computes_shortest_distances_witness :
    EdgeKeysWF mainGraph.edges ∧ NonnegW mainGraph.edges ∧
    (∀ p ∈ mainGraph.edges, p.1 ∈ mainGraph.nodes ∧ ∀ q ∈ p.2, q.1 ∈ mainGraph.nodes) ∧
    "A" ∈ mainGraph.nodes ∧
    (∃ d g', dijkstra mainGraph "A" = .table d g' ∧
      ∀ v vs c, Walk mainGraph.edges "A" v vs c →
        ∃ dv : ℤ, d v = some ((dv : ℤ) : DVal) ∧
          (∃ vs2, Walk mainGraph.edges "A" v vs2 dv ∧ ("A" :: vs2).Nodup) ∧
          (∀ vs2 c2, Walk mainGraph.edges "A" v vs2 c2 → dv ≤ c2)) :=
  ⟨by decide, by decide, by decide, by decide,
    dijkstra_computes_shortest_distances mainGraph "A" (by decide) (by decide)
      (by decide) (by decide)⟩
